import Mathlib

/-!
Verification of the core crawler of `web_c_engine` against its specification.

The Go sources under `crawler/` (crawler.go, robots.go, utils.go) are shallowly
embedded below.  Pure helper functions become Lean functions on `List Char`
(written `Str`); the stateful crawler loop becomes explicit state passing over
a `CrawlState` together with an event trace; fallible operations return
`Option`.  Behaviour of external collaborators that is not part of the
repository (the Go standard library's `net/url`, `time.Parse`,
`crypto/sha256`, the `robotstxt` and `goquery` libraries) is modelled from the
specification, as noted on each such definition.
-/

/-- Strings are modelled as lists of characters so that every string operation
used by the embedding is a plain structural function. -/
abbrev Str := List Char

/-- Model of `strings.Cut(s, sep)` for a one-character separator: the part
before the first occurrence, the part after it, and whether it was found. -/
def cutFirst (c : Char) : Str → Str × Str × Bool
  | [] => ([], [], false)
  | x :: xs =>
    if x = c then ([], xs, true)
    else
      let r := cutFirst c xs
      (x :: r.1, r.2.1, r.2.2)

/-- Model of `strings.Split(s, sep)` for a one-character separator. -/
def splitOnChar (c : Char) : Str → List Str
  | [] => [[]]
  | x :: xs =>
    let r := splitOnChar c xs
    if x = c then [] :: r
    else (x :: r.headD []) :: r.tail

/-- Model of `strings.Join(l, sep)` with separator slash. -/
def joinSegs : List Str → Str
  | [] => []
  | [a] => a
  | a :: rest => a ++ '/' :: joinSegs rest

/-- Number of occurrences of a character. -/
def countChar (c : Char) (s : Str) : Nat :=
  (s.filter (fun x => x = c)).length

/-- ASCII lower-casing of one character, as `strings.ToLower` behaves on
the ASCII characters a scheme may contain. -/
def asciiToLower : Char → Char
  | 'A' => 'a' | 'B' => 'b' | 'C' => 'c' | 'D' => 'd' | 'E' => 'e' | 'F' => 'f'
  | 'G' => 'g' | 'H' => 'h' | 'I' => 'i' | 'J' => 'j' | 'K' => 'k' | 'L' => 'l'
  | 'M' => 'm' | 'N' => 'n' | 'O' => 'o' | 'P' => 'p' | 'Q' => 'q' | 'R' => 'r'
  | 'S' => 's' | 'T' => 't' | 'U' => 'u' | 'V' => 'v' | 'W' => 'w' | 'X' => 'x'
  | 'Y' => 'y' | 'Z' => 'z' | c => c

/-- ASCII lower-casing, as `strings.ToLower` behaves on ASCII scheme names. -/
def toLowerStr (s : Str) : Str :=
  s.map asciiToLower

/-- Model of the Go test that a string starts with a given string. -/
def strStartsWith (pre s : Str) : Bool :=
  s.take pre.length = pre

/-- Remove one leading slash if present, as Go trims the literal slash. -/
def trimOneLeadingSlash (s : Str) : Str :=
  match s with
  | '/' :: t => t
  | _ => s

/-- Everything up to and including the last slash of a string (empty when
there is no slash): the directory part used by path resolution. -/
def lastSlashTake (base : Str) : Str :=
  (((base.reverse).dropWhile (fun c => c ≠ '/')).reverse)

/-- Whitespace class of Go's regexp `\s`, namely `[\t\n\f\r ]`. -/
def goRegexSpace (c : Char) : Bool :=
  c = ' ' ∨ c = '\t' ∨ c = '\n' ∨ c = '\x0c' ∨ c = '\r'

/-- Whitespace trimmed by Go's `strings.TrimSpace` (ASCII part). -/
def goSpace (c : Char) : Bool :=
  c = ' ' ∨ c = '\t' ∨ c = '\n' ∨ c = '\x0b' ∨ c = '\x0c' ∨ c = '\r'

/-- Model of `strings.TrimSpace` on `Str`. -/
def goTrimSpace (s : Str) : Str :=
  ((s.dropWhile goSpace).reverse.dropWhile goSpace).reverse

/-- Emit a collected whitespace run: a run of two or more characters
collapses to a single space, a run of one stays as it is. -/
def emitWsRun (run : Str) : Str :=
  if 2 ≤ run.length then [' '] else run

/-- Accumulator loop for the whitespace-collapsing replacement: `run` holds
the current maximal run of `\s` characters. -/
def collapseWsAux (run : Str) : Str → Str
  | [] => emitWsRun run
  | c :: rest =>
    if goRegexSpace c then collapseWsAux (run ++ [c]) rest
    else emitWsRun run ++ c :: collapseWsAux [] rest

/-- Replace every maximal run of two or more `\s` characters by a single
space, as the whitespace-collapsing regexp replacement in ExtractMainContent. -/
def collapseWhitespace (s : Str) : Str :=
  collapseWsAux [] s

/-- Emit a collected newline run: a run of three or more newlines collapses
to two, shorter runs stay as they are. -/
def emitNlRun (run : Str) : Str :=
  if 3 ≤ run.length then ['\n', '\n'] else run

/-- Accumulator loop for the newline-collapsing replacement: `run` holds the
current maximal run of newlines. -/
def collapseNlAux (run : Str) : Str → Str
  | [] => emitNlRun run
  | c :: rest =>
    if c = '\n' then collapseNlAux (run ++ [c]) rest
    else emitNlRun run ++ c :: collapseNlAux [] rest

/-- Replace every maximal run of three or more newlines by two newlines: the
newline-collapsing regexp replacement in ExtractMainContent. -/
def collapseNewlines (s : Str) : Str :=
  collapseNlAux [] s

/-! ### Content hashing (utils.go: GenerateContentHash)

The Go code writes the UTF-8 bytes of the content into a `crypto/sha256`
digest and renders it with `fmt.Sprintf("%x", ...)`.  The standard library
primitives are not part of the repository; SHA-256 is modelled here in full
(FIPS 180-4) over `Nat` with explicit reduction modulo `2^32`. -/

/-- Modulus for 32-bit words. -/
def w32 : Nat := 4294967296

/-- UTF-8 encoding of one character, as Go's `[]byte(string)` produces. -/
def utf8EncodeChar (c : Char) : List Nat :=
  let n := c.toNat
  if n < 128 then [n]
  else if n < 2048 then [192 + n / 64, 128 + n % 64]
  else if n < 65536 then [224 + n / 4096, 128 + n / 64 % 64, 128 + n % 64]
  else [240 + n / 262144, 128 + n / 4096 % 64, 128 + n / 64 % 64, 128 + n % 64]

/-- UTF-8 bytes of a string. -/
def strBytes (s : Str) : List Nat :=
  (s.map utf8EncodeChar).flatten

/-- Right rotation of a 32-bit word. -/
def rotr32 (n x : Nat) : Nat :=
  ((x >>> n) + (x <<< (32 - n))) % w32

/-- Lower-case sigma-0 of the SHA-256 message schedule. -/
def sig0 (x : Nat) : Nat := (rotr32 7 x) ^^^ (rotr32 18 x) ^^^ (x >>> 3)

/-- Lower-case sigma-1 of the SHA-256 message schedule. -/
def sig1 (x : Nat) : Nat := (rotr32 17 x) ^^^ (rotr32 19 x) ^^^ (x >>> 10)

/-- Upper-case sigma-0 of the SHA-256 compression function. -/
def bigSig0 (x : Nat) : Nat := (rotr32 2 x) ^^^ (rotr32 13 x) ^^^ (rotr32 22 x)

/-- Upper-case sigma-1 of the SHA-256 compression function. -/
def bigSig1 (x : Nat) : Nat := (rotr32 6 x) ^^^ (rotr32 11 x) ^^^ (rotr32 25 x)

/-- Choice function of SHA-256. -/
def chFn (x y z : Nat) : Nat := (x &&& y) ^^^ ((x ^^^ 4294967295) &&& z)

/-- Majority function of SHA-256. -/
def majFn (x y z : Nat) : Nat := (x &&& y) ^^^ (x &&& z) ^^^ (y &&& z)

/-- Round constants of SHA-256. -/
def sha256K : List Nat :=
  [1116352408, 1899447441, 3049323471, 3921009573, 961987163, 1508970993,
   2453635748, 2870763221, 3624381080, 310598401, 607225278, 1426881987,
   1925078388, 2162078206, 2614888103, 3248222580, 3835390401, 4022224774,
   264347078, 604807628, 770255983, 1249150122, 1555081692, 1996064986,
   2554220882, 2821834349, 2952996808, 3210313671, 3336571891, 3584528711,
   113926993, 338241895, 666307205, 773529912, 1294757372, 1396182291,
   1695183700, 1986661051, 2177026350, 2456956037, 2730485921, 2820302411,
   3259730800, 3345764771, 3516065817, 3600352804, 4094571909, 275423344,
   430227734, 506948616, 659060556, 883997877, 958139571, 1322822218,
   1537002063, 1747873779, 1955562222, 2024104815, 2227730452, 2361852424,
   2428436474, 2756734187, 3204031479, 3329325298]

/-- Big-endian bytes of a number, fixed width. -/
def beBytes : Nat → Nat → List Nat
  | 0, _ => []
  | n + 1, x => beBytes n (x / 256) ++ [x % 256]

/-- SHA-256 padding: append `0x80`, zeros, and the 64-bit bit length. -/
def sha256pad (msg : List Nat) : List Nat :=
  let k := (119 - msg.length % 64) % 64
  msg ++ [128] ++ List.replicate k 0 ++ beBytes 8 (msg.length * 8)

/-- Split a byte list into 64-byte blocks. -/
def chunks64 (l : List Nat) : List (List Nat) :=
  if h : l = [] then []
  else l.take 64 :: chunks64 (l.drop 64)
  termination_by l.length
  decreasing_by
    have : 0 < l.length := List.length_pos.mpr h
    simp only [List.length_drop]
    omega

/-- Combine consecutive groups of four bytes into big-endian 32-bit words. -/
def bytesToWords : List Nat → List Nat
  | b0 :: b1 :: b2 :: b3 :: rest =>
    (b0 * 16777216 + b1 * 65536 + b2 * 256 + b3) :: bytesToWords rest
  | _ => []

/-- Extend the 16-word schedule to 64 words. -/
def extendW (w : List Nat) : Nat → List Nat
  | 0 => w
  | n + 1 =>
    let t := w.length
    let wt := (sig1 (w.getD (t - 2) 0) + w.getD (t - 7) 0 +
               sig0 (w.getD (t - 15) 0) + w.getD (t - 16) 0) % w32
    extendW (w ++ [wt]) n

/-- Working state of the SHA-256 compression function. -/
structure Sha256State where
  a : Nat
  b : Nat
  c : Nat
  d : Nat
  e : Nat
  f : Nat
  g : Nat
  h : Nat
deriving Repr, DecidableEq

/-- Initial hash value of SHA-256. -/
def sha256Init : Sha256State :=
  ⟨1779033703, 3144134277, 1013904242, 2773480762,
   1359893119, 2600822924, 528734635, 1541459225⟩

/-- One round of the SHA-256 compression function. -/
def sha256Round (st : Sha256State) (kw : Nat × Nat) : Sha256State :=
  let t1 := (st.h + bigSig1 st.e + chFn st.e st.f st.g + kw.1 + kw.2) % w32
  let t2 := (bigSig0 st.a + majFn st.a st.b st.c) % w32
  ⟨(t1 + t2) % w32, st.a, st.b, st.c, (st.d + t1) % w32, st.e, st.f, st.g⟩

/-- Process one 64-byte block. -/
def sha256Block (h0 : Sha256State) (block : List Nat) : Sha256State :=
  let w := extendW (bytesToWords block) 48
  let st := (sha256K.zip w).foldl sha256Round h0
  ⟨(h0.a + st.a) % w32, (h0.b + st.b) % w32, (h0.c + st.c) % w32, (h0.d + st.d) % w32,
   (h0.e + st.e) % w32, (h0.f + st.f) % w32, (h0.g + st.g) % w32, (h0.h + st.h) % w32⟩

/-- Big-endian bytes of one 32-bit word. -/
def wordBytes (x : Nat) : List Nat :=
  [x / 16777216 % 256, x / 65536 % 256, x / 256 % 256, x % 256]

/-- SHA-256 digest (32 bytes) of a byte message. -/
def sha256 (msg : List Nat) : List Nat :=
  let hf := (chunks64 (sha256pad msg)).foldl sha256Block sha256Init
  wordBytes hf.a ++ wordBytes hf.b ++ wordBytes hf.c ++ wordBytes hf.d ++
  wordBytes hf.e ++ wordBytes hf.f ++ wordBytes hf.g ++ wordBytes hf.h

/-- Lower-case hexadecimal digit for a value below 16, as `fmt.Sprintf("%x")`
renders nibbles. -/
def hexDigitChar (n : Nat) : Char :=
  if n < 10 then Char.ofNat (48 + n) else Char.ofNat (87 + n)

/-- Two lower-case hexadecimal digits of one byte. -/
def byteToHex (b : Nat) : Str :=
  [hexDigitChar (b / 16 % 16), hexDigitChar (b % 16)]

/-- GenerateContentHash from utils.go: the SHA-256 digest of the UTF-8 bytes
of `content`, rendered as lower-case hexadecimal. -/
def GenerateContentHash (content : Str) : Str :=
  ((sha256 (strBytes content)).map byteToHex).flatten

/-! ### HTML documents (goquery model)

The `goquery` library is not part of the repository.  A parsed document is
modelled by the three query surfaces the crawler uses: the texts of the
elements matching a CSS selector, the attribute value of the first element
matching a selector, and the href attributes of the anchors.  The fallback
blocks of ExtractMainContent are recorded after the nested
`script, style, nav, footer, aside, .adsbygoogle` removal that the Go code
performs on each matched element. -/

structure HtmlDoc where
  /-- Texts of all elements matching a selector, in document order
  (`doc.Find(sel).Each` reading `.Text()`). -/
  findText : String → List Str
  /-- Attribute of the first element matching a selector
  (`doc.Find(sel).Attr(name)`); `none` when no match carries the attribute. -/
  findAttr : String → String → Option Str
  /-- Texts of the elements matching `article, main, section, p, h1, h2, h3`,
  each taken after removing nested `script, style, nav, footer, aside,
  .adsbygoogle` elements. -/
  fallbackBlocks : List Str
  /-- Values of the `href` attribute of the `a[href]` elements, in document
  order. -/
  anchorHrefs : List Str

/-- Final cleaning of ExtractMainContent: collapse whitespace runs, collapse
newline runs, trim. -/
def cleanContent (s : Str) : Str :=
  goTrimSpace (collapseNewlines (collapseWhitespace s))

/-- Text accumulated by the selector pass of ExtractMainContent: for each
configured selector, the text of every matching element followed by a
newline. -/
def selectorPass (doc : HtmlDoc) (contentTags : List String) : Str :=
  (contentTags.map (fun sel => ((doc.findText sel).map (fun t => t ++ ['\n'])).flatten)).flatten

/-- Text accumulated by the fallback pass of ExtractMainContent: each
fallback block whose trimmed text is longer than 50 bytes, followed by a
blank line. -/
def fallbackPass (doc : HtmlDoc) : Str :=
  (doc.fallbackBlocks.map (fun blockText =>
    let text := goTrimSpace blockText
    if 50 < (strBytes text).length then text ++ ['\n', '\n'] else [])).flatten

/-- ExtractMainContent from utils.go: run the selector pass when
`content_tags` is non-empty; run the fallback pass whenever the builder is
still empty; clean the result. -/
def ExtractMainContent (doc : HtmlDoc) (contentTags : List String) : Str :=
  let builder := if 0 < contentTags.length then selectorPass doc contentTags else []
  let builder := if builder.length = 0 then fallbackPass doc else builder
  cleanContent builder

/-! ### Robots cache (robots.go)

`robotstxt.RobotsData` is not part of the repository.  Modelled from the
spec: parsed robots directives for a host answer allow-queries
`(path, user_agent) → allowed?`; the sentinel obtained by parsing
`"User-agent: *\nAllow: /"` with status 200 allows everything. -/

structure RobotsData where
  /-- `TestAgent(path, agent)` of the parsed directives. -/
  test : Str → Str → Bool

/-- Result of `robotstxt.FromStatusAndBytes(200, "User-agent: *\nAllow: /")`:
directives that allow every path for every agent, returned with a nil
error. -/
def allowAllSentinel : RobotsData :=
  ⟨fun _ _ => true⟩

/-- Outcome of `FetchPage` as far as GetRobotsData observes it: a transport
error, or a response with a status code, a flag telling whether reading the
body succeeds, and the body. -/
inductive FetchOutcome where
  | netErr
  | response (status : Nat) (readOk : Bool) (body : Str)

/-- The process-wide robots cache, keyed by host. -/
structure RobotsCache where
  entries : List (String × RobotsData)

/-- Cache lookup by host. -/
def RobotsCache.find (cache : RobotsCache) (host : String) : Option RobotsData :=
  (cache.entries.find? (fun e => e.1 = host)).map Prod.snd

/-- Result of one GetRobotsData call: the directives, the error value, the
cache afterwards, and whether a robots.txt fetch was attempted. -/
structure RobotsQueryResult where
  data : RobotsData
  err : Option String
  cache : RobotsCache
  fetched : Bool

/-- GetRobotsData from robots.go.  `fromBytes` models `robotstxt.FromBytes`
(`none` = parse error); `fetch` is the outcome the network would give for
this host's robots.txt.  On a cache hit the cached directives are returned;
on a successful fetch-and-parse the directives are cached; every failure
returns the allow-all sentinel with a nil error and leaves the cache
unchanged. -/
def GetRobotsData (fromBytes : Str → Option RobotsData) (fetch : FetchOutcome)
    (cache : RobotsCache) (host : String) : RobotsQueryResult :=
  match cache.find host with
  | some data => ⟨data, none, cache, false⟩
  | none =>
    match fetch with
    | .netErr => ⟨allowAllSentinel, none, cache, true⟩
    | .response status readOk body =>
      if status ≠ 200 then ⟨allowAllSentinel, none, cache, true⟩
      else if readOk = false then ⟨allowAllSentinel, none, cache, true⟩
      else
        match fromBytes body with
        | none => ⟨allowAllSentinel, none, cache, true⟩
        | some robotsData =>
          ⟨robotsData, none, ⟨(host, robotsData) :: cache.entries⟩, true⟩

/-- IsAllowedByRobots from robots.go: query GetRobotsData; a non-nil error
would disallow; otherwise answer with `TestAgent(path, agent)`. -/
def IsAllowedByRobots (fromBytes : Str → Option RobotsData) (fetch : FetchOutcome)
    (cache : RobotsCache) (host : String) (path userAgent : Str) : Bool × RobotsCache :=
  let r := GetRobotsData fromBytes fetch cache host
  match r.err with
  | some _ => (false, r.cache)
  | none => (r.data.test path userAgent, r.cache)

/-! ### HTTP client (crawler.go: DefaultHTTPClient.Get) -/

/-- Result of `DefaultHTTPClient.Get`: the parsed document, the raw HTML
string, and the error value. -/
structure GetResult where
  doc : Option HtmlDoc
  htmlString : Str
  err : Option String

/-- DefaultHTTPClient.Get from crawler.go.  `parseDoc` models
`goquery.NewDocumentFromReader` (`none` = parse error).  On a transport
error the error is returned; on a non-200 status the code returns
`nil, "", err` where `err` is the nil error of the successful FetchPage
call; otherwise the body is read and parsed. -/
def DefaultHTTPClientGet (parseDoc : Str → Option HtmlDoc)
    (fetch : FetchOutcome) : GetResult :=
  match fetch with
  | .netErr => ⟨none, [], some "fetch error"⟩
  | .response status readOk body =>
    if status ≠ 200 then ⟨none, [], none⟩
    else if readOk = false then ⟨none, [], some "read error"⟩
    else
      match parseDoc body with
      | none => ⟨none, body, some "parse error"⟩
      | some doc => ⟨some doc, body, none⟩

/-! ### Frontier, visited set and worker pool (crawler.go)

The concurrent loop is embedded as explicit state passing: a `CrawlState`
holds the visited set and the buffered task queue, and every operation also
reports the trace of observable events it performs, in program order. -/

structure CrawlTask where
  url : Str
  depth : Nat
deriving Repr, DecidableEq

structure CrawlState where
  visited : List Str
  queue : List CrawlTask
deriving Repr, DecidableEq

/-- Observable crawler events, in program order. -/
inductive CrawlEvent where
  | workersStarted
  | fetchAttempt (url : Str)
  | stored (url : Str) (hashId : Str)
  | marked (url : Str)
  | enqueued (url : Str) (depth : Nat)
  | droppedFull (url : Str)
deriving Repr, DecidableEq

/-- markVisited from crawler.go: insert the URL into the visited set. -/
def markVisited (st : CrawlState) (url : Str) : CrawlState :=
  { st with visited := url :: st.visited }

/-- hasVisited from crawler.go: membership in the visited set. -/
def hasVisited (st : CrawlState) (url : Str) : Bool :=
  st.visited.contains url

/-- IsExcludedDomain from utils.go: some configured excluded domain is a
suffix of the link's hostname. -/
def IsExcludedDomain (hostname : Str) (excludedDomains : List Str) : Bool :=
  excludedDomains.any (fun domain => domain.isSuffixOf hostname)

/-- Page-level context of extractAndQueueLinks: URL resolution against the
page's base URL, hostname extraction, and the configured filters.
Resolution and hostnames are supplied as functions because they come from
`net/url` values owned by the caller. -/
structure LinkEnv where
  normalize : Str → Option Str
  hostOf : Str → Str
  baseHost : Str
  excludedDomains : List Str
  adMatch : Str → Bool
  cap : Nat

/-- Body of the `doc.Find("a[href]").Each` callback in extractAndQueueLinks:
filter one href and, when it survives and is unvisited, mark it visited and
try a non-blocking enqueue (dropping on a full queue). -/
def processLink (env : LinkEnv) (nextDepth : Nat) (st : CrawlState) (href : Str) :
    CrawlState × List CrawlEvent :=
  if strStartsWith ['#'] href ∨ strStartsWith "javascript:".toList (toLowerStr href) then
    (st, [])
  else
    match env.normalize href with
    | none => (st, [])
    | some absURL =>
      if env.hostOf absURL ≠ env.baseHost then (st, [])
      else if IsExcludedDomain (env.hostOf absURL) env.excludedDomains then (st, [])
      else if env.adMatch absURL then (st, [])
      else if hasVisited st absURL then (st, [])
      else
        let st1 := markVisited st absURL
        if st1.queue.length < env.cap then
          ({ st1 with queue := st1.queue ++ [⟨absURL, nextDepth⟩] },
            [.marked absURL, .enqueued absURL nextDepth])
        else
          (st1, [.marked absURL, .droppedFull absURL])

/-- extractAndQueueLinks from crawler.go: process every href of the page in
document order. -/
def extractAndQueueLinks (env : LinkEnv) (nextDepth : Nat) :
    CrawlState → List Str → CrawlState × List CrawlEvent
  | st, [] => (st, [])
  | st, href :: rest =>
    let r1 := processLink env nextDepth st href
    let r2 := extractAndQueueLinks env nextDepth r1.1 rest
    (r2.1, r1.2 ++ r2.2)

/-- Per-task context of crawlPage: the link context, the depth limit, the
configured content selectors, whether `url.Parse(task.URL)` succeeds,
whether robots allow the page, and the outcome of `httpClient.Get`
(`none` = error; otherwise the parsed document and raw HTML). -/
structure PageEnv where
  linkEnv : LinkEnv
  maxDepth : Nat
  contentTags : List String
  parseOk : Bool
  robotsAllowed : Bool
  fetchRes : Option (HtmlDoc × Str)

/-- crawlPage from crawler.go: parse the task URL, consult robots, fetch,
extract and store, and only below the depth limit extract and enqueue
links. -/
def crawlPage (env : PageEnv) (task : CrawlTask) (st : CrawlState) :
    CrawlState × List CrawlEvent :=
  if env.parseOk = false then (st, [])
  else if env.robotsAllowed = false then (st, [])
  else
    match env.fetchRes with
    | none => (st, [.fetchAttempt task.url])
    | some (doc, _htmlString) =>
      let mainContent := ExtractMainContent doc env.contentTags
      let hashId := GenerateContentHash mainContent
      let evs : List CrawlEvent := [.fetchAttempt task.url, .stored task.url hashId]
      if task.depth < env.maxDepth then
        let r := extractAndQueueLinks env.linkEnv (task.depth + 1) st doc.anchorHrefs
        (r.1, evs ++ r.2)
      else
        (st, evs)

/-- One iteration of the worker loop from crawler.go for a received task:
drop it beyond the depth limit, otherwise crawl the page. -/
def workerStep (env : PageEnv) (task : CrawlTask) (st : CrawlState) :
    CrawlState × List CrawlEvent :=
  if env.maxDepth < task.depth then (st, [])
  else crawlPage env task st

/-- Events of the seeding loop of Start in crawler.go: for each seed, in
order, the enqueue happens first and the markVisited second. -/
def seedEvents (seeds : List Str) : List CrawlEvent :=
  (seeds.map (fun u => [CrawlEvent.enqueued u 0, CrawlEvent.marked u])).flatten

/-- Events of Start in crawler.go up to the end of the seeding loop: the
workers are started before any seed is enqueued. -/
def startTrace (seeds : List Str) : List CrawlEvent :=
  CrawlEvent.workersStarted :: seedEvents seeds

/-- Effect of one event on the crawler state. -/
def applyEvent (st : CrawlState) : CrawlEvent → CrawlState
  | .enqueued u d => { st with queue := st.queue ++ [⟨u, d⟩] }
  | .marked u => markVisited st u
  | _ => st

/-- State reached after a list of events. -/
def replayEvents (st : CrawlState) (evs : List CrawlEvent) : CrawlState :=
  evs.foldl applyEvent st

/-- The empty initial crawler state of NewCrawler. -/
def initialState : CrawlState := ⟨[], []⟩

/-- Number of enqueue events for a URL in a trace. -/
def enqueueCount (u : Str) (evs : List CrawlEvent) : Nat :=
  (evs.filter (fun e => match e with | .enqueued v _ => v = u | _ => false)).length

/-- One link-discovery step of an arbitrary interleaved sequential run: each
step carries its own page context. -/
structure LinkStep where
  env : LinkEnv
  nextDepth : Nat
  href : Str

/-- Sequential execution of a list of link-discovery steps. -/
def runLinks : CrawlState → List LinkStep → CrawlState × List CrawlEvent
  | _st, [] => (_st, [])
  | st, s :: rest =>
    let r1 := processLink s.env s.nextDepth st s.href
    let r2 := runLinks r1.1 rest
    (r2.1, r1.2 ++ r2.2)

/-! ### Publication timestamp (crawlPage, robots.go related copy, lines 257-292)

`time.Parse` is not part of the repository.  Modelled from the spec: the
three layouts tried are RFC3339, `2006-01-02T15:04:05Z` (date-time followed
by a literal `Z`, interpreted as UTC) and `2006-01-02`; a successful parse
yields the Unix timestamp.  Field widths are fixed, fields are
range-checked, and an optional fractional-second part after the seconds is
accepted and ignored by the two date-time layouts. -/

/-- ASCII digit test. -/
def isDigitChar (c : Char) : Bool :=
  '0' ≤ c ∧ c ≤ '9'

/-- Numeric value of an ASCII digit. -/
def digitVal (c : Char) : Nat :=
  c.toNat - 48

/-- Read exactly two digits. -/
def parse2 : Str → Option (Nat × Str)
  | a :: b :: rest =>
    if isDigitChar a ∧ isDigitChar b then some (digitVal a * 10 + digitVal b, rest) else none
  | _ => none

/-- Read exactly four digits. -/
def parse4 : Str → Option (Nat × Str)
  | a :: b :: c :: d :: rest =>
    if isDigitChar a ∧ isDigitChar b ∧ isDigitChar c ∧ isDigitChar d then
      some (digitVal a * 1000 + digitVal b * 100 + digitVal c * 10 + digitVal d, rest)
    else none
  | _ => none

/-- Read one expected character. -/
def expectChar (c : Char) : Str → Option Str
  | x :: rest => if x = c then some rest else none
  | _ => none

/-- Gregorian leap-year rule. -/
def isLeapYear (y : Nat) : Bool :=
  y % 4 = 0 ∧ (y % 100 ≠ 0 ∨ y % 400 = 0)

/-- Days in a month. -/
def daysInMonth (y m : Nat) : Nat :=
  if m = 2 then (if isLeapYear y then 29 else 28)
  else if m = 4 ∨ m = 6 ∨ m = 9 ∨ m = 11 then 30
  else 31

/-- Days from the Unix epoch to a civil date (Hinnant's algorithm). -/
def daysFromCivil (y m d : Nat) : Int :=
  let yy : Int := if m ≤ 2 then (y : Int) - 1 else (y : Int)
  let era : Int := (if 0 ≤ yy then yy else yy - 399) / 400
  let yoe : Int := yy - era * 400
  let mp : Int := if 2 < m then (m : Int) - 3 else (m : Int) + 9
  let doy : Int := (153 * mp + 2) / 5 + (d : Int) - 1
  let doe : Int := yoe * 365 + yoe / 4 - yoe / 100 + doy
  era * 146097 + doe - 719468

/-- Unix timestamp of a civil date-time with a zone offset in seconds. -/
def toUnix (y mo d hh mi ss : Nat) (offset : Int) : Int :=
  daysFromCivil y mo d * 86400 + (hh : Int) * 3600 + (mi : Int) * 60 + (ss : Int) - offset

/-- Range checks of a civil date. -/
def validDate (y mo d : Nat) : Bool :=
  1 ≤ mo ∧ mo ≤ 12 ∧ 1 ≤ d ∧ d ≤ daysInMonth y mo

/-- Range checks of a time of day. -/
def validTime (hh mi ss : Nat) : Bool :=
  hh ≤ 23 ∧ mi ≤ 59 ∧ ss ≤ 59

/-- Read `yyyy-mm-ddThh:mm:ss` with range checks. -/
def parseDateTimeCore (s : Str) : Option ((Nat × Nat × Nat × Nat × Nat × Nat) × Str) := do
  let (y, s) ← parse4 s
  let s ← expectChar '-' s
  let (mo, s) ← parse2 s
  let s ← expectChar '-' s
  let (d, s) ← parse2 s
  let s ← expectChar 'T' s
  let (hh, s) ← parse2 s
  let s ← expectChar ':' s
  let (mi, s) ← parse2 s
  let s ← expectChar ':' s
  let (ss, s) ← parse2 s
  if validDate y mo d ∧ validTime hh mi ss then some ((y, mo, d, hh, mi, ss), s) else none

/-- Skip an optional fractional-second part: a dot followed by at least one
digit. -/
def skipFrac (s : Str) : Str :=
  match s with
  | '.' :: c :: rest =>
    if isDigitChar c then (c :: rest).dropWhile isDigitChar else s
  | _ => s

/-- Read an RFC3339 zone designator terminating the string: `Z`, or a signed
`hh:mm` offset. -/
def parseZone (s : Str) : Option Int :=
  match s with
  | ['Z'] => some 0
  | c :: rest =>
    if c = '+' ∨ c = '-' then
      match parse2 rest with
      | none => none
      | some (zh, r1) =>
        match expectChar ':' r1 with
        | none => none
        | some r2 =>
          match parse2 r2 with
          | none => none
          | some (zm, r3) =>
            if r3 = [] ∧ zh ≤ 23 ∧ zm ≤ 59 then
              some (if c = '-' then -((zh : Int) * 3600 + zm * 60) else (zh : Int) * 3600 + zm * 60)
            else none
    else none
  | _ => none

/-- Model of `time.Parse(time.RFC3339, s).Unix()`. -/
def goParseRFC3339 (s : Str) : Option Int := do
  let (dt, rest) ← parseDateTimeCore s
  let off ← parseZone (skipFrac rest)
  some (toUnix dt.1 dt.2.1 dt.2.2.1 dt.2.2.2.1 dt.2.2.2.2.1 dt.2.2.2.2.2 off)

/-- Model of `time.Parse("2006-01-02T15:04:05Z", s).Unix()`: the `Z` is a
literal and the time is taken in UTC. -/
def goParseLayoutZ (s : Str) : Option Int := do
  let (dt, rest) ← parseDateTimeCore s
  if skipFrac rest = ['Z'] then
    some (toUnix dt.1 dt.2.1 dt.2.2.1 dt.2.2.2.1 dt.2.2.2.2.1 dt.2.2.2.2.2 0)
  else none

/-- Model of `time.Parse("2006-01-02", s).Unix()`: midnight UTC. -/
def goParseDateOnly (s : Str) : Option Int := do
  let (y, s1) ← parse4 s
  let s2 ← expectChar '-' s1
  let (mo, s3) ← parse2 s2
  let s4 ← expectChar '-' s3
  let (d, s5) ← parse2 s4
  if s5 = [] ∧ validDate y mo d then some (toUnix y mo d 0 0 0 0) else none

/-- The publication-date string of crawlPage: the first of the four sources
whose value is non-empty (a missing attribute reads as empty). -/
def extractPubDateStr (doc : HtmlDoc) : Str :=
  let s1 := (doc.findAttr "meta[property='article:published_time']" "content").getD []
  if s1 ≠ [] then s1
  else
    let s2 := (doc.findAttr "meta[name='pubdate']" "content").getD []
    if s2 ≠ [] then s2
    else
      let s3 := (doc.findAttr "meta[name='sailthru.date']" "content").getD []
      if s3 ≠ [] then s3
      else (doc.findAttr "time[datetime]" "datetime").getD []

/-- The publication timestamp computed by crawlPage: parse the date string
as RFC3339, then as the literal-Z layout, then as a bare date; the first
success wins and everything else yields 0. -/
def publicationTimestamp (doc : HtmlDoc) : Int :=
  let pubDateStr := extractPubDateStr doc
  if pubDateStr ≠ [] then
    match goParseRFC3339 pubDateStr with
    | some t => t
    | none =>
      match goParseLayoutZ pubDateStr with
      | some t => t
      | none =>
        match goParseDateOnly pubDateStr with
        | some t => t
        | none => 0
  else 0

/-- Transcription of the specification sentence for the publication
timestamp: the first non-empty value among the four sources, put through
the three parse attempts in order, the first success giving the timestamp,
otherwise 0. -/
def specPublicationTimestamp (doc : HtmlDoc) : Int :=
  let sources : List Str :=
    [(doc.findAttr "meta[property='article:published_time']" "content").getD [],
     (doc.findAttr "meta[name='pubdate']" "content").getD [],
     (doc.findAttr "meta[name='sailthru.date']" "content").getD [],
     (doc.findAttr "time[datetime]" "datetime").getD []]
  match (sources.filter (fun s => s ≠ [])).head? with
  | none => 0
  | some s =>
    (((goParseRFC3339 s).or (goParseLayoutZ s)).or (goParseDateOnly s)).getD 0

/-! ### URL parsing, resolution and printing (utils.go: NormalizeURL)

NormalizeURL calls `url.Parse`, `URL.ResolveReference` and `URL.String` of
`net/url`, which is not part of the repository.  Modelled from the spec
("normalization, resolution"), following the documented behaviour of
`net/url`: the generic URI grammar `scheme:opaque` /
`scheme://host/path?query#fragment` without user-info, percent-escaping or
host validation, with dot-segment removal per RFC 3986 section 5.2.4. -/

structure GoURL where
  scheme : Str
  opq : Str
  host : Str
  omitHost : Bool
  path : Str
  forceQuery : Bool
  rawQuery : Str
  fragment : Str
deriving Repr, DecidableEq

/-- The zero URL value. -/
def emptyURL : GoURL :=
  ⟨[], [], [], false, [], false, [], []⟩

/-- ASCII alphabetic test. -/
def isAlphaChar (c : Char) : Bool :=
  ('a' ≤ c ∧ c ≤ 'z') ∨ ('A' ≤ c ∧ c ≤ 'Z')

/-- Characters allowed after the first character of a scheme. -/
def isSchemeTailChar (c : Char) : Bool :=
  isAlphaChar c ∨ isDigitChar c ∨ c = '+' ∨ c = '-' ∨ c = '.'

/-- Scan loop of `getScheme` past the first character: `some (scheme, rest)`
when a colon terminates a well-formed scheme, `some ([], orig)` when a
character proves there is no scheme. -/
def schemeLoop (acc : Str) (orig : Str) : Str → Option (Str × Str)
  | [] => some ([], orig)
  | c :: rest =>
    if isSchemeTailChar c then schemeLoop (acc ++ [c]) orig rest
    else if c = ':' then some (acc, rest)
    else some ([], orig)

/-- Model of `getScheme`: split `scheme:rest`; `none` is the
"missing protocol scheme" error for a leading colon; a leading non-letter
means there is no scheme. -/
def getScheme (s : Str) : Option (Str × Str) :=
  match s with
  | [] => some ([], [])
  | c :: rest =>
    if c = ':' then none
    else if isAlphaChar c then schemeLoop [c] s rest
    else some ([], s)

/-- Split `host , path` at the first slash, keeping the slash on the path
side, as the authority parsing does. -/
def splitHostPath : Str → Str × Str
  | [] => ([], [])
  | c :: rest =>
    if c = '/' then ([], c :: rest)
    else
      let r := splitHostPath rest
      (c :: r.1, r.2)

/-- Model of `url.Parse`: cut the fragment at the first `#`, read the
scheme (lower-cased), detect a lone trailing `?` as ForceQuery or split the
query at the first `?`, then classify the remainder as opaque, authority
plus path, host-omitted path, or plain path.  `none` models the two parse
errors reachable in this fragment of the grammar: a leading colon and a
colon inside the first segment of a scheme-less relative path. -/
def classifyRest (sch rest2 : Str) (forceQuery : Bool) (rawQuery frag : Str) :
    Option GoURL :=
  if rest2.head? ≠ some '/' ∧ sch ≠ [] then
    some ⟨sch, rest2, [], false, [], forceQuery, rawQuery, frag⟩
  else if rest2.head? ≠ some '/' ∧ ':' ∈ (cutFirst '/' rest2).1 then
    none
  else if (sch ≠ [] ∨ ¬strStartsWith ['/', '/', '/'] rest2) ∧
      strStartsWith ['/', '/'] rest2 then
    let hp := splitHostPath (rest2.drop 2)
    some ⟨sch, [], hp.1, false, hp.2, forceQuery, rawQuery, frag⟩
  else if sch ≠ [] ∧ rest2.head? = some '/' then
    some ⟨sch, [], [], true, rest2, forceQuery, rawQuery, frag⟩
  else
    some ⟨sch, [], [], false, rest2, forceQuery, rawQuery, frag⟩

def parseURL (raw : Str) : Option GoURL :=
  let cf := cutFirst '#' raw
  let frag := cf.2.1
  match getScheme cf.1 with
  | none => none
  | some (sch0, rest1) =>
    let sch := toLowerStr sch0
    let isFQ : Bool := rest1.getLast? = some '?' ∧ countChar '?' rest1 = 1
    let rest2 := if isFQ then rest1.dropLast else (cutFirst '?' rest1).1
    let rawQuery := if isFQ then [] else (cutFirst '?' rest1).2.1
    classifyRest sch rest2 isFQ rawQuery frag

/-- Well-formedness of a parsed scheme: empty, or an ASCII letter followed
by letters, digits, plus, minus and dots. -/
def validSchemeB : Str → Bool
  | [] => true
  | c :: t => isAlphaChar c && (c :: t).all isSchemeTailChar

/-- A path contains no dot segments. -/
def dotFreeB (p : Str) : Bool :=
  (splitOnChar '/' p).all (fun e => e ≠ ['.'] && e ≠ ['.', '.'])

/-- Dot-segment removal of `resolvePath` (RFC 3986 section 5.2.4): `"."`
segments are dropped, `".."` segments pop, a trailing dot segment leaves a
trailing slash, and the result keeps exactly one leading slash. -/
def dotRemove (full : Str) : Str :=
  let segs := splitOnChar '/' full
  let dst0 := segs.foldl
    (fun acc e =>
      if e = ['.'] then acc
      else if e = ['.', '.'] then acc.dropLast
      else acc ++ [e])
    ([] : List Str)
  let dst :=
    if segs.getLast? = some ['.'] ∨ segs.getLast? = some ['.', '.'] then dst0 ++ [[]]
    else dst0
  '/' :: trimOneLeadingSlash (joinSegs dst)

def resolvePath (base ref : Str) : Str :=
  let full :=
    if ref = [] then base
    else if ref.head? ≠ some '/' then lastSlashTake base ++ ref
    else ref
  if full = [] then []
  else dotRemove full

/-- Model of `URL.ResolveReference`: an absolute or authority-bearing
reference wins (with its path dot-cleaned); an opaque reference keeps its
opacity; otherwise the reference is merged with the base, inheriting query
and fragment when it has none of path, query and ForceQuery. -/
def resolveReference (u ref : GoURL) : GoURL :=
  let url := if ref.scheme = [] then { ref with scheme := u.scheme } else ref
  if ref.scheme ≠ [] ∨ ref.host ≠ [] then
    { url with path := resolvePath ref.path [] }
  else if ref.opq ≠ [] then
    { url with host := [], path := [] }
  else
    let url :=
      if ref.path = [] ∧ ref.forceQuery = false ∧ ref.rawQuery = [] then
        let url := { url with rawQuery := u.rawQuery }
        if ref.fragment = [] then { url with fragment := u.fragment } else url
      else url
    { url with host := u.host, path := resolvePath u.path ref.path }

/-- Model of `URL.String`: scheme, then opaque or authority and path (with
the disambiguating extra slash and `./` where needed), then query and
fragment. -/
def urlString (u : GoURL) : Str :=
  let b1 := if u.scheme ≠ [] then u.scheme ++ [':'] else []
  let b2 :=
    if u.opq ≠ [] then b1 ++ u.opq
    else
      let bAuth :=
        if u.scheme ≠ [] ∨ u.host ≠ [] then
          if u.omitHost ∧ u.host = [] then b1
          else if u.host ≠ [] ∨ u.path ≠ [] then b1 ++ ['/', '/'] ++ u.host
          else b1
        else b1
      let bSlash :=
        if u.path ≠ [] ∧ u.path.head? ≠ some '/' ∧ u.host ≠ [] then bAuth ++ ['/']
        else bAuth
      let bDot :=
        if bSlash = [] ∧ ':' ∈ (cutFirst '/' u.path).1 then bSlash ++ ['.', '/']
        else bSlash
      bDot ++ u.path
  let b3 := if u.forceQuery = true ∨ u.rawQuery ≠ [] then b2 ++ ['?'] ++ u.rawQuery else b2
  if u.fragment ≠ [] then b3 ++ ['#'] ++ u.fragment else b3

/-- NormalizeURL from utils.go: parse the href (fallible), resolve it
against the base, and print the result. -/
def NormalizeURL (base : GoURL) (relativePath : Str) : Option Str :=
  (parseURL relativePath).map (fun relURL => urlString (resolveReference base relURL))

/-! ### Lemmas and claim theorems -/

theorem byteToHex_length (b : Nat) : (byteToHex b).length = 2 := rfl

theorem flatten_map_byteToHex_length (bs : List Nat) :
    ((bs.map byteToHex).flatten).length = 2 * bs.length := by
  induction bs with
  | nil => simp
  | cons b rest ih =>
    simp [List.flatten_cons, byteToHex_length, ih]
    ring

theorem sha256_length (msg : List Nat) : (sha256 msg).length = 32 := by
  simp [sha256, wordBytes]

/-- Lower-case hexadecimal digit test. -/
def isLowerHexDigit (c : Char) : Bool :=
  ('0' ≤ c ∧ c ≤ '9') ∨ ('a' ≤ c ∧ c ≤ 'f')

theorem hexDigitChar_hex (n : Nat) (h : n < 16) :
    isLowerHexDigit (hexDigitChar n) = true := by
  interval_cases n <;> decide

theorem byteToHex_chars (b : Nat) (c : Char) (hc : c ∈ byteToHex b) :
    isLowerHexDigit c = true := by
  simp only [byteToHex, List.mem_cons, List.mem_singleton, List.not_mem_nil, or_false] at hc
  rcases hc with h | h
  · exact h ▸ hexDigitChar_hex _ (Nat.mod_lt _ (by norm_num))
  · exact h ▸ hexDigitChar_hex _ (Nat.mod_lt _ (by norm_num))

/-- C9: for every input string, GenerateContentHash returns exactly 64
characters, each a lower-case hexadecimal digit (the SHA-256 hex digest) --
so every hash fits the 64-character primary-key limit -- and identical
content always yields an identical hash. -/
theorem c9_generateContentHash_shape (content : Str) :
    (GenerateContentHash content).length = 64 ∧
    (GenerateContentHash content).all isLowerHexDigit = true ∧
    (∀ content2 : Str, content = content2 →
      GenerateContentHash content = GenerateContentHash content2) := by
  refine ⟨?_, ?_, ?_⟩
  · unfold GenerateContentHash
    rw [flatten_map_byteToHex_length, sha256_length]
  · rw [List.all_eq_true]
    intro c hc
    unfold GenerateContentHash at hc
    rw [List.mem_flatten] at hc
    obtain ⟨l, hl, hcl⟩ := hc
    rw [List.mem_map] at hl
    obtain ⟨b, _, rfl⟩ := hl
    exact byteToHex_chars b c hcl
  · intro content2 h
    rw [h]

/-- Witness for C9 at the empty content. -/
theorem c9_generateContentHash_shape_witness :
    GenerateContentHash [] = GenerateContentHash ([] : Str) :=
  (c9_generateContentHash_shape []).2.2 [] rfl

theorem getRobotsData_err_none (fromBytes : Str → Option RobotsData)
    (fetch : FetchOutcome) (cache : RobotsCache) (host : String) :
    (GetRobotsData fromBytes fetch cache host).err = none := by
  unfold GetRobotsData
  cases RobotsCache.find cache host with
  | some d => rfl
  | none =>
    cases fetch with
    | netErr => rfl
    | response status readOk body =>
      by_cases h1 : status ≠ 200
      · simp [h1]
      · by_cases h2 : readOk = false
        · simp [h1, h2]
        · cases hb : fromBytes body <;> simp [h1, h2, hb]

/-- C10: GetRobotsData returns robots data with a nil error on every path,
so the error branch of IsAllowedByRobots that would disallow is unreachable
and the answer is exactly the directives test. -/
theorem c10_robots_error_total (fromBytes : Str → Option RobotsData)
    (fetch : FetchOutcome) (cache : RobotsCache) (host : String) (path userAgent : Str) :
    (GetRobotsData fromBytes fetch cache host).err = none ∧
    (IsAllowedByRobots fromBytes fetch cache host path userAgent).1 =
      (GetRobotsData fromBytes fetch cache host).data.test path userAgent := by
  refine ⟨getRobotsData_err_none fromBytes fetch cache host, ?_⟩
  unfold IsAllowedByRobots
  simp only [getRobotsData_err_none]

/-- Failure of the robots.txt retrieval as GetRobotsData classifies it:
network error, non-200 status, body read error, or parse error. -/
def robotsFetchFails (fromBytes : Str → Option RobotsData) : FetchOutcome → Prop
  | .netErr => True
  | .response status readOk body => status ≠ 200 ∨ readOk = false ∨ fromBytes body = none

/-- C2 counterexample: after a failed robots.txt fetch for an uncached host
the sentinel is NOT stored in the cache, and a second query for the same
host performs another fetch -- the claim's "stored in the robots cache, so
... no repeated robots.txt fetch is made" fails. -/
theorem c2_counterexample :
    (GetRobotsData (fun _ => none) .netErr ⟨[]⟩ "a.com").cache.find "a.com" = none ∧
    (GetRobotsData (fun _ => none) .netErr
      (GetRobotsData (fun _ => none) .netErr ⟨[]⟩ "a.com").cache "a.com").fetched = true := by
  exact ⟨rfl, rfl⟩

/-- C2 as amended: on every failed robots.txt retrieval for an uncached
host, GetRobotsData returns the allow-all sentinel with a nil error after
attempting a fetch, but leaves the cache unchanged -- so the failing query
itself (and, while the failure persists, every later query) answers
allow-all, at the price of a repeated fetch per query. -/
theorem c2_robots_failure_allow_all (fromBytes : Str → Option RobotsData)
    (fetch : FetchOutcome) (cache : RobotsCache) (host : String)
    (hmiss : cache.find host = none) (hfail : robotsFetchFails fromBytes fetch) :
    GetRobotsData fromBytes fetch cache host = ⟨allowAllSentinel, none, cache, true⟩ ∧
    (∀ path userAgent : Str,
      (GetRobotsData fromBytes fetch cache host).data.test path userAgent = true) := by
  have hmain : GetRobotsData fromBytes fetch cache host = ⟨allowAllSentinel, none, cache, true⟩ := by
    unfold GetRobotsData
    rw [hmiss]
    cases fetch with
    | netErr => rfl
    | response status readOk body =>
      rcases hfail with h | h | h
      · simp [h]
      · by_cases h1 : status ≠ 200
        · simp [h1]
        · simp [h1, h]
      · by_cases h1 : status ≠ 200
        · simp [h1]
        · by_cases h2 : readOk = false
          · simp [h1, h2]
          · simp [h1, h2, h]
  refine ⟨hmain, fun path userAgent => ?_⟩
  rw [hmain]
  rfl

/-- Witness for the amended C2 at a concrete uncached host and a network
error. -/
theorem c2_robots_failure_allow_all_witness :
    GetRobotsData (fun _ => some ⟨fun _ _ => false⟩) .netErr ⟨[]⟩ "b.com" =
      ⟨allowAllSentinel, none, ⟨[]⟩, true⟩ ∧
    (GetRobotsData (fun _ => some ⟨fun _ _ => false⟩) .netErr ⟨[]⟩ "b.com").data.test
      "/x".toList "agent".toList = true := by
  have h := c2_robots_failure_allow_all (fun _ => some ⟨fun _ _ => false⟩) .netErr ⟨[]⟩ "b.com"
    rfl trivial
  exact ⟨h.1, h.2 "/x".toList "agent".toList⟩

/-- C5: at a non-2xx status DefaultHTTPClient.Get returns a nil document,
an empty body and a NIL error (the `err` it returns is the nil error of the
successful FetchPage call), so no fetch failure is surfaced to crawlPage,
whose error check passes and which then dereferences the nil document --
the claim's "surfaces a fetch failure (an error result)" is what the code
was meant to do but does not. -/
theorem c5_get_non200_nil_error (parseDoc : Str → Option HtmlDoc) (body : Str) :
    DefaultHTTPClientGet parseDoc (.response 404 true body) =
      ⟨none, [], none⟩ := rfl

theorem extractAndQueueLinks_events (env : LinkEnv) (nextDepth : Nat) :
    ∀ (hrefs : List Str) (st : CrawlState) (u : Str) (d : Nat),
      CrawlEvent.enqueued u d ∈ (extractAndQueueLinks env nextDepth st hrefs).2 → d = nextDepth := by
  intro hrefs
  induction hrefs with
  | nil => intro st u d h; simp [extractAndQueueLinks] at h
  | cons href rest ih =>
    intro st u d h
    simp only [extractAndQueueLinks, List.mem_append] at h
    rcases h with h | h
    · unfold processLink at h
      split at h
      · simp at h
      · split at h
        · simp at h
        · split at h
          · simp at h
          · split at h
            · simp at h
            · split at h
              · simp at h
              · split at h
                · simp at h
                · simp only [] at h
                  split at h <;> simp_all
    · exact ih _ u d h

/-- C1: a task deeper than max_depth is dropped without any event (no fetch,
no store); a task exactly at max_depth produces no enqueue event, and on the
success path (URL parses, robots allow, fetch succeeds) it is fetched and
stored; an enqueue event can only happen for a task strictly below
max_depth. -/
theorem c1_depth_contract (env : PageEnv) (task : CrawlTask) (st : CrawlState) :
    (env.maxDepth < task.depth → workerStep env task st = (st, [])) ∧
    (task.depth = env.maxDepth →
      (∀ u d, CrawlEvent.enqueued u d ∉ (workerStep env task st).2) ∧
      (env.parseOk = true → env.robotsAllowed = true →
        ∀ doc htmlString, env.fetchRes = some (doc, htmlString) →
          CrawlEvent.fetchAttempt task.url ∈ (workerStep env task st).2 ∧
          CrawlEvent.stored task.url
              (GenerateContentHash (ExtractMainContent doc env.contentTags)) ∈
            (workerStep env task st).2)) ∧
    (∀ u d, CrawlEvent.enqueued u d ∈ (workerStep env task st).2 →
      task.depth < env.maxDepth) := by
  refine ⟨?_, ?_, ?_⟩
  · intro h
    unfold workerStep
    simp [h]
  · intro hdep
    constructor
    · intro u d
      unfold workerStep crawlPage
      have hnd : ¬ env.maxDepth < task.depth := by omega
      simp only [if_neg hnd]
      split
      · simp
      · split
        · simp
        · split
          · simp
          · have hnlt : ¬ task.depth < env.maxDepth := by omega
            simp [hnlt]
    · intro hp hr doc htmlString hf
      unfold workerStep crawlPage
      have hnd : ¬ env.maxDepth < task.depth := by omega
      have hnlt : ¬ task.depth < env.maxDepth := by omega
      simp [hnd, hp, hr, hf, hnlt]
  · intro u d h
    unfold workerStep crawlPage at h
    by_cases hdrop : env.maxDepth < task.depth
    · simp [hdrop] at h
    · simp only [if_neg hdrop] at h
      by_cases hlt : task.depth < env.maxDepth
      · exact hlt
      · exfalso
        split at h
        · simp at h
        · split at h
          · simp at h
          · split at h
            · simp at h
            · simp only [if_neg hlt] at h
              simp at h

/-- Concrete document fixture for the C1 witness. -/
def c1Doc : HtmlDoc :=
  ⟨fun _ => [], fun _ _ => none, [], ["/b".toList]⟩

/-- Concrete page context fixture for the C1 witness: depth limit 1. -/
def c1Env : PageEnv :=
  ⟨⟨fun h => some h, fun _ => "a".toList, "a".toList, [], fun _ => false, 10⟩,
   1, [], true, true, some (c1Doc, [])⟩

/-- Witness for C1: a depth-2 task is dropped with no events, and a depth-1
task (at the limit) is fetched and stored. -/
theorem c1_depth_contract_witness :
    workerStep c1Env ⟨"http://a/x".toList, 2⟩ initialState = (initialState, []) ∧
    CrawlEvent.fetchAttempt "http://a/y".toList ∈
      (workerStep c1Env ⟨"http://a/y".toList, 1⟩ initialState).2 ∧
    (∀ u d, CrawlEvent.enqueued u d ∉
      (workerStep c1Env ⟨"http://a/y".toList, 1⟩ initialState).2) := by
  refine ⟨?_, ?_, ?_⟩
  · exact (c1_depth_contract c1Env ⟨"http://a/x".toList, 2⟩ initialState).1 (by decide)
  · exact ((c1_depth_contract c1Env ⟨"http://a/y".toList, 1⟩ initialState).2.1 rfl).2
      rfl rfl c1Doc [] rfl |>.1
  · exact ((c1_depth_contract c1Env ⟨"http://a/y".toList, 1⟩ initialState).2.1 rfl).1

/-- Case analysis of processLink: either the href is filtered out or found
visited (no state change, no events), or its normalized URL is unvisited
and is marked and then either enqueued or dropped on a full queue. -/
theorem processLink_spec (env : LinkEnv) (nd : Nat) (st : CrawlState) (href : Str) :
    processLink env nd st href = (st, []) ∨
    ∃ absURL,
      hasVisited st absURL = false ∧
      (processLink env nd st href =
          (⟨absURL :: st.visited, st.queue ++ [⟨absURL, nd⟩]⟩,
            [.marked absURL, .enqueued absURL nd]) ∨
        processLink env nd st href =
          (⟨absURL :: st.visited, st.queue⟩, [.marked absURL, .droppedFull absURL])) := by
  unfold processLink
  split
  · exact Or.inl rfl
  · split
    · exact Or.inl rfl
    · split
      · exact Or.inl rfl
      · split
        · exact Or.inl rfl
        · split
          · exact Or.inl rfl
          · split
            · exact Or.inl rfl
            · rename_i h4
              simp only [Bool.not_eq_true] at h4
              refine Or.inr ⟨_, h4, ?_⟩
              simp only []
              split
              · exact Or.inl (by simp [markVisited])
              · exact Or.inr (by simp [markVisited])

theorem enqueueCount_append (u : Str) (a b : List CrawlEvent) :
    enqueueCount u (a ++ b) = enqueueCount u a + enqueueCount u b := by
  simp [enqueueCount, List.filter_append]

theorem enqueueCount_processLink_le (env : LinkEnv) (nd : Nat) (st : CrawlState)
    (href : Str) (u : Str) :
    enqueueCount u (processLink env nd st href).2 ≤ 1 := by
  rcases processLink_spec env nd st href with h | ⟨a, _, h | h⟩
  · rw [h]
    simp [enqueueCount]
  · rw [h]
    by_cases hau : a = u <;> simp [enqueueCount, hau]
  · rw [h]
    simp [enqueueCount]

theorem processLink_visited_mono (env : LinkEnv) (nd : Nat) (st : CrawlState)
    (href : Str) (u : Str) (hv : hasVisited st u = true) :
    hasVisited (processLink env nd st href).1 u = true := by
  rcases processLink_spec env nd st href with h | ⟨a, _, h | h⟩
  · rw [h]
    exact hv
  · rw [h]
    simp only [hasVisited, List.contains] at hv ⊢
    rw [List.elem_iff] at hv ⊢
    exact List.mem_cons_of_mem a hv
  · rw [h]
    simp only [hasVisited, List.contains] at hv ⊢
    rw [List.elem_iff] at hv ⊢
    exact List.mem_cons_of_mem a hv

theorem enqueueCount_processLink_visited (env : LinkEnv) (nd : Nat) (st : CrawlState)
    (href : Str) (u : Str) (hv : hasVisited st u = true) :
    enqueueCount u (processLink env nd st href).2 = 0 := by
  rcases processLink_spec env nd st href with h | ⟨a, ha, h | h⟩
  · rw [h]
    simp [enqueueCount]
  · rw [h]
    have hau : ¬ a = u := by
      intro hau
      rw [hau] at ha
      rw [ha] at hv
      exact Bool.false_ne_true hv
    simp [enqueueCount, hau]
  · rw [h]
    simp [enqueueCount]

theorem enqueueCount_processLink_marks (env : LinkEnv) (nd : Nat) (st : CrawlState)
    (href : Str) (u : Str) (h1 : 0 < enqueueCount u (processLink env nd st href).2) :
    hasVisited (processLink env nd st href).1 u = true := by
  rcases processLink_spec env nd st href with h | ⟨a, ha, h | h⟩
  · rw [h] at h1
    simp [enqueueCount] at h1
  · rw [h] at h1 ⊢
    by_cases hau : a = u
    · subst hau
      simp only [hasVisited, List.contains]
      rw [List.elem_iff]
      exact List.mem_cons_self a st.visited
    · simp [enqueueCount, hau] at h1
  · rw [h] at h1
    simp [enqueueCount] at h1

theorem runLinks_enqueue_once (u : Str) (steps : List LinkStep) :
    ∀ st : CrawlState,
      (hasVisited st u = true → enqueueCount u (runLinks st steps).2 = 0) ∧
      enqueueCount u (runLinks st steps).2 ≤ 1 := by
  induction steps with
  | nil => intro st; simp [runLinks, enqueueCount]
  | cons s rest ih =>
    intro st
    have hsplit : (runLinks st (s :: rest)).2 =
        (processLink s.env s.nextDepth st s.href).2 ++
        (runLinks (processLink s.env s.nextDepth st s.href).1 rest).2 := rfl
    constructor
    · intro hv
      rw [hsplit, enqueueCount_append]
      rw [enqueueCount_processLink_visited s.env s.nextDepth st s.href u hv]
      rw [(ih _).1 (processLink_visited_mono s.env s.nextDepth st s.href u hv)]
    · rw [hsplit, enqueueCount_append]
      by_cases hz : 0 < enqueueCount u (processLink s.env s.nextDepth st s.href).2
      · have := enqueueCount_processLink_marks s.env s.nextDepth st s.href u hz
        rw [(ih _).1 this]
        have := enqueueCount_processLink_le s.env s.nextDepth st s.href u
        omega
      · have := (ih (processLink s.env s.nextDepth st s.href).1).2
        omega

theorem enqueueCount_seedEvents (u : Str) (seeds : List Str) :
    enqueueCount u (seedEvents seeds) = seeds.count u := by
  induction seeds with
  | nil => simp [seedEvents, enqueueCount]
  | cons v rest ih =>
    have h : seedEvents (v :: rest) =
        [CrawlEvent.enqueued v 0, CrawlEvent.marked v] ++ seedEvents rest := by
      simp [seedEvents]
    rw [h, enqueueCount_append, ih, List.count_cons]
    simp [enqueueCount]
    by_cases hv : v = u
    · simp [hv]
      omega
    · have : ¬ (u = v) := fun hh => hv hh.symm
      simp [hv, this]

/-- C3 counterexample: with the same URL listed twice in seed_urls, Start
enqueues it twice -- seed URLs are enqueued without any visited-set check,
so "u is enqueued at most once" fails. -/
theorem c3_counterexample :
    enqueueCount "http://a/".toList
      (startTrace ["http://a/".toList, "http://a/".toList]) = 2 := by
  decide

/-- C3 as amended: in a sequential execution, link discovery enqueues every
URL at most once (the visited check and insertion precede the enqueue, and
once a URL was processed it stays in the visited set), and a URL already
visited is never enqueued again by link discovery; seed URLs, however, are
enqueued unconditionally, once per occurrence in seed_urls, with no
visited-set check. -/
theorem c3_enqueue_at_most_once (u : Str) (steps : List LinkStep) (st : CrawlState)
    (seeds : List Str) :
    enqueueCount u (runLinks st steps).2 ≤ 1 ∧
    (hasVisited st u = true → enqueueCount u (runLinks st steps).2 = 0) ∧
    enqueueCount u (startTrace seeds) = seeds.count u := by
  refine ⟨(runLinks_enqueue_once u steps st).2, (runLinks_enqueue_once u steps st).1, ?_⟩
  have h : startTrace seeds = [CrawlEvent.workersStarted] ++ seedEvents seeds := rfl
  rw [h, enqueueCount_append, enqueueCount_seedEvents]
  simp [enqueueCount]

/-- Witness for the amended C3: a URL already in the visited set is not
enqueued by a link step that rediscovers it. -/
theorem c3_enqueue_at_most_once_witness :
    enqueueCount "http://a/b".toList
      (runLinks ⟨["http://a/b".toList], []⟩
        [⟨⟨fun h => some h, fun _ => "a".toList, "a".toList, [], fun _ => false, 10⟩,
          1, "http://a/b".toList⟩]).2 = 0 := by
  have h := (c3_enqueue_at_most_once "http://a/b".toList
    [⟨⟨fun h => some h, fun _ => "a".toList, "a".toList, [], fun _ => false, 10⟩,
      1, "http://a/b".toList⟩] ⟨["http://a/b".toList], []⟩ []).2.1 (by decide)
  exact h

/-- C4 counterexample: with one seed, after Start has begun the workers and
sent the seed task to the queue but not yet marked it visited, the queue
holds a task whose URL is not in the visited set -- the claimed invariant
fails at a reachable state, and insertion does not precede enqueue for
seeds. -/
theorem c4_counterexample :
    (startTrace ["http://a/".toList]).take 2 =
      [CrawlEvent.workersStarted, CrawlEvent.enqueued "http://a/".toList 0] ∧
    (⟨"http://a/".toList, 0⟩ : CrawlTask) ∈
      (replayEvents initialState ((startTrace ["http://a/".toList]).take 2)).queue ∧
    "http://a/".toList ∉
      (replayEvents initialState ((startTrace ["http://a/".toList]).take 2)).visited := by
  refine ⟨rfl, ?_, ?_⟩ <;> decide

theorem seedEvents_marked_after_enqueue (u : Str) :
    ∀ (seeds : List Str) (pre post : List CrawlEvent),
      seedEvents seeds = pre ++ CrawlEvent.marked u :: post →
      CrawlEvent.enqueued u 0 ∈ pre := by
  intro seeds
  induction seeds with
  | nil =>
    intro pre post h
    simp [seedEvents] at h
  | cons v rest ih =>
    intro pre post h
    have hv : seedEvents (v :: rest) =
        CrawlEvent.enqueued v 0 :: CrawlEvent.marked v :: seedEvents rest := by
      simp [seedEvents]
    rw [hv] at h
    match pre with
    | [] => simp at h
    | [x] =>
      simp at h
      simp only [List.mem_singleton]
      rw [← h.2.1]
      exact h.1
    | x :: y :: pre' =>
      simp at h
      exact List.mem_cons_of_mem _ (List.mem_cons_of_mem _ (ih pre' post h.2.2))

theorem processLink_enqueue_after_marked (env : LinkEnv) (nd : Nat) (st : CrawlState)
    (href : Str) (u : Str) (d : Nat) (pre post : List CrawlEvent)
    (h : (processLink env nd st href).2 = pre ++ CrawlEvent.enqueued u d :: post) :
    CrawlEvent.marked u ∈ pre := by
  rcases processLink_spec env nd st href with hs | ⟨a, _, hs | hs⟩
  · rw [hs] at h
    simp at h
  · rw [hs] at h
    match pre with
    | [] => simp at h
    | [x] =>
      simp at h
      simp only [List.mem_singleton]
      rw [← h.2.1.1]
      exact h.1
    | x :: y :: pre' => simp at h
  · rw [hs] at h
    match pre with
    | [] => simp at h
    | [x] => simp at h
    | x :: y :: pre' => simp at h

/-- C4 as amended: for discovered links, the visited-set insertion event
strictly precedes the enqueue event of the same URL, so the claimed
invariant holds along link discovery; for seed URLs the order is reversed
-- the enqueue precedes the markVisited -- and the workers are started
before the seeding loop, so between a seed's enqueue and its mark the
queued task's URL is not yet visited. -/
theorem c4_insert_before_enqueue
    (env : LinkEnv) (nd : Nat) (st : CrawlState) (href : Str)
    (u : Str) (d : Nat) (pre post : List CrawlEvent)
    (seeds : List Str) (u2 : Str) (pre2 post2 : List CrawlEvent) :
    ((processLink env nd st href).2 = pre ++ CrawlEvent.enqueued u d :: post →
      CrawlEvent.marked u ∈ pre) ∧
    (seedEvents seeds = pre2 ++ CrawlEvent.marked u2 :: post2 →
      CrawlEvent.enqueued u2 0 ∈ pre2) ∧
    (startTrace seeds).head? = some CrawlEvent.workersStarted := by
  exact ⟨processLink_enqueue_after_marked env nd st href u d pre post,
    seedEvents_marked_after_enqueue u2 seeds pre2 post2, rfl⟩

/-- Witness for the amended C4 at a concrete link step and a concrete seed
list. -/
theorem c4_insert_before_enqueue_witness :
    CrawlEvent.marked "u".toList ∈ [CrawlEvent.marked "u".toList] ∧
    CrawlEvent.enqueued "s".toList 0 ∈ [CrawlEvent.enqueued "s".toList 0] := by
  constructor
  · exact (c4_insert_before_enqueue
      ⟨fun h => some h, fun _ => [], [], [], fun _ => false, 10⟩ 1 initialState
      "u".toList "u".toList 1 [CrawlEvent.marked "u".toList] []
      ["s".toList] "s".toList [CrawlEvent.enqueued "s".toList 0] []).1 (by decide)
  · exact (c4_insert_before_enqueue
      ⟨fun h => some h, fun _ => [], [], [], fun _ => false, 10⟩ 1 initialState
      "u".toList "u".toList 1 [CrawlEvent.marked "u".toList] []
      ["s".toList] "s".toList [CrawlEvent.enqueued "s".toList 0] []).2.1 (by decide)

/-- Document fixture for C6: no element matches any selector, and one
fallback block is longer than 50 characters. -/
def c6Doc : HtmlDoc :=
  ⟨fun _ => [], fun _ _ => none,
   ["This paragraph is long enough to pass the fifty character filter easily.".toList],
   []⟩

/-- C6 counterexample: with the non-empty selector list `["article"]`
matching nothing, ExtractMainContent is NOT the (cleaned) selector
concatenation -- it falls back to the semantic-tag walk, the same result as
with an empty content_tags list -- so "the fallback ... is used only when
content_tags is empty" fails. -/
theorem c6_counterexample :
    ExtractMainContent c6Doc ["article"] ≠ cleanContent (selectorPass c6Doc ["article"]) ∧
    ExtractMainContent c6Doc ["article"] = ExtractMainContent c6Doc [] := by
  constructor <;> decide

/-- C6 as amended: with a non-empty content_tags whose selector pass
collects any text, the main content is the cleaned selector concatenation;
the fallback walk is used exactly when the selector pass collects nothing
-- always when content_tags is empty, but also when no configured selector
matches. -/
theorem c6_main_content_paths (doc : HtmlDoc) (contentTags : List String) :
    (selectorPass doc contentTags = [] →
      ExtractMainContent doc contentTags = ExtractMainContent doc []) ∧
    (contentTags ≠ [] → selectorPass doc contentTags ≠ [] →
      ExtractMainContent doc contentTags = cleanContent (selectorPass doc contentTags)) := by
  constructor
  · intro hsel
    unfold ExtractMainContent
    by_cases hlen : 0 < contentTags.length
    · simp [hlen, hsel]
    · simp [hlen]
  · intro htags hsel
    unfold ExtractMainContent
    have hlen : 0 < contentTags.length := List.length_pos.mpr htags
    have hne : (selectorPass doc contentTags).length ≠ 0 := by
      simpa [List.length_eq_zero] using hsel
    simp [hlen, hne]

/-- Document fixture for the C6 witness with a matching selector. -/
def c6DocMatch : HtmlDoc :=
  ⟨fun sel => if sel = "article" then ["Selector text".toList] else [],
   fun _ _ => none, [], []⟩

/-- Witness for the amended C6: the fallback case at a document with no
selector match, and the selector case at a document with a match. -/
theorem c6_main_content_paths_witness :
    ExtractMainContent c6Doc ["article"] = ExtractMainContent c6Doc [] ∧
    ExtractMainContent c6DocMatch ["article"] =
      cleanContent (selectorPass c6DocMatch ["article"]) := by
  constructor
  · exact (c6_main_content_paths c6Doc ["article"]).1 (by decide)
  · exact (c6_main_content_paths c6DocMatch ["article"]).2 (by decide) (by decide)

theorem parseChain_eq (s : Str) :
    (match goParseRFC3339 s with
     | some t => t
     | none =>
       match goParseLayoutZ s with
       | some t => t
       | none =>
         match goParseDateOnly s with
         | some t => t
         | none => 0) =
    (((goParseRFC3339 s).or (goParseLayoutZ s)).or (goParseDateOnly s)).getD 0 := by
  cases goParseRFC3339 s <;> cases goParseLayoutZ s <;> cases goParseDateOnly s <;> rfl

/-- Document fixture for C7 carrying the spec's example date. -/
def c7Doc : HtmlDoc :=
  ⟨fun _ => [],
   fun sel attr =>
     if sel = "meta[property='article:published_time']" ∧ attr = "content" then
       some "2024-05-01T12:00:00Z".toList
     else none,
   [], []⟩

/-- C7: the publication timestamp equals the specified computation -- first
non-empty source among the four in order, parse attempts RFC3339 then the
literal-Z layout then the bare date, first success, otherwise 0 -- and on
the spec's example document it is the Unix time of 2024-05-01T12:00:00Z. -/
theorem c7_publication_timestamp (doc : HtmlDoc) :
    publicationTimestamp doc = specPublicationTimestamp doc ∧
    publicationTimestamp c7Doc = 1714564800 := by
  constructor
  · unfold publicationTimestamp specPublicationTimestamp extractPubDateStr
    by_cases h1 : (doc.findAttr "meta[property='article:published_time']" "content").getD [] = []
    · by_cases h2 : (doc.findAttr "meta[name='pubdate']" "content").getD [] = []
      · by_cases h3 : (doc.findAttr "meta[name='sailthru.date']" "content").getD [] = []
        · by_cases h4 : (doc.findAttr "time[datetime]" "datetime").getD [] = []
          · simp [h1, h2, h3, h4]
          · simp [h1, h2, h3, h4]
            exact parseChain_eq _
        · simp [h1, h2, h3]
          exact parseChain_eq _
      · simp [h1, h2]
        exact parseChain_eq _
    · simp [h1]
      exact parseChain_eq _
  · decide

theorem cutFirst_not_mem {c : Char} {s : Str} (h : c ∉ s) :
    cutFirst c s = (s, [], false) := by
  induction s with
  | nil => rfl
  | cons x xs ih =>
    simp only [List.mem_cons, not_or] at h
    have hxc : ¬ x = c := fun he => h.1 he.symm
    simp [cutFirst, hxc, ih h.2]

theorem cutFirst_append {c : Char} {a b : Str} (h : c ∉ a) :
    cutFirst c (a ++ c :: b) = (a, b, true) := by
  induction a with
  | nil => simp [cutFirst]
  | cons x xs ih =>
    simp only [List.mem_cons, not_or] at h
    have hxc : ¬ x = c := fun he => h.1 he.symm
    simp [cutFirst, hxc, ih h.2]

theorem asciiToLower_spec (c : Char) :
    asciiToLower c = c ∨ ('a' ≤ asciiToLower c ∧ asciiToLower c ≤ 'z') := by
  obtain ⟨d, hd⟩ : ∃ d, asciiToLower c = d := ⟨_, rfl⟩
  rw [hd]
  unfold asciiToLower at hd
  split at hd <;> subst hd
  all_goals first | exact Or.inr (by decide) | exact Or.inl rfl

theorem asciiToLower_lower_fix {d : Char} (h : 'a' ≤ d ∧ d ≤ 'z') : asciiToLower d = d := by
  unfold asciiToLower
  split
  all_goals first | rfl | exact absurd h (by decide)

theorem asciiToLower_idem (c : Char) : asciiToLower (asciiToLower c) = asciiToLower c := by
  rcases asciiToLower_spec c with h | h
  · rw [h, h]
  · exact asciiToLower_lower_fix h

theorem lower_isAlpha {d : Char} (h : 'a' ≤ d ∧ d ≤ 'z') : isAlphaChar d = true := by
  simp only [isAlphaChar, Bool.decide_or, Bool.or_eq_true, decide_eq_true_eq]
  exact Or.inl h

theorem asciiToLower_alpha {c : Char} (h : isAlphaChar c = true) :
    isAlphaChar (asciiToLower c) = true := by
  rcases asciiToLower_spec c with hs | hs
  · rwa [hs]
  · exact lower_isAlpha hs

theorem asciiToLower_tail {c : Char} (h : isSchemeTailChar c = true) :
    isSchemeTailChar (asciiToLower c) = true := by
  rcases asciiToLower_spec c with hs | hs
  · rwa [hs]
  · simp only [isSchemeTailChar, Bool.decide_or, Bool.or_eq_true, decide_eq_true_eq]
    exact Or.inl (lower_isAlpha hs)

theorem toLowerStr_idem (s : Str) : toLowerStr (toLowerStr s) = toLowerStr s := by
  simp only [toLowerStr, List.map_map]
  exact List.map_congr_left (fun x _ => asciiToLower_idem x)

theorem splitOnChar_ne_nil (c : Char) (s : Str) : splitOnChar c s ≠ [] := by
  cases s with
  | nil => simp [splitOnChar]
  | cons x xs =>
    simp only [splitOnChar]
    split <;> simp

theorem splitOnChar_cons_sep (c : Char) (xs : Str) :
    splitOnChar c (c :: xs) = [] :: splitOnChar c xs := by
  simp [splitOnChar]

theorem splitOnChar_cons_ne {c x : Char} (xs : Str) (h : ¬ x = c) :
    splitOnChar c (x :: xs) =
      (x :: (splitOnChar c xs).headD []) :: (splitOnChar c xs).tail := by
  simp [splitOnChar, h]

theorem joinSegs_cons (a : Str) (l : List Str) (hl : l ≠ []) :
    joinSegs (a :: l) = a ++ '/' :: joinSegs l := by
  cases l with
  | nil => exact absurd rfl hl
  | cons b t => rfl

theorem join_split (s : Str) : joinSegs (splitOnChar '/' s) = s := by
  induction s with
  | nil => rfl
  | cons x xs ih =>
    by_cases hx : x = '/'
    · subst hx
      rw [splitOnChar_cons_sep, joinSegs_cons _ _ (splitOnChar_ne_nil _ _), ih]
      rfl
    · rw [splitOnChar_cons_ne xs hx]
      obtain ⟨hd, tl, hsplit⟩ : ∃ hd tl, splitOnChar '/' xs = hd :: tl :=
        List.exists_cons_of_ne_nil (splitOnChar_ne_nil '/' xs)
      rw [hsplit]
      rw [hsplit] at ih
      simp only [List.headD_cons, List.tail_cons]
      cases tl with
      | nil => exact congrArg (fun l => x :: l) ih
      | cons b t =>
        rw [joinSegs_cons _ _ (by simp)]
        rw [joinSegs_cons _ _ (by simp)] at ih
        simp only [List.cons_append]
        rw [ih]

theorem splitOnChar_no_sep_self {c : Char} {s : Str} (h : c ∉ s) :
    splitOnChar c s = [s] := by
  induction s with
  | nil => rfl
  | cons x xs ih =>
    simp only [List.mem_cons, not_or] at h
    rw [splitOnChar_cons_ne xs (fun he => h.1 he.symm), ih h.2]
    rfl

theorem splitOnChar_append_sep {c : Char} {a : Str} (t : Str) (h : c ∉ a) :
    splitOnChar c (a ++ c :: t) = a :: splitOnChar c t := by
  induction a with
  | nil => simp [splitOnChar_cons_sep]
  | cons x xs ih =>
    simp only [List.mem_cons, not_or] at h
    rw [List.cons_append, splitOnChar_cons_ne _ (fun he => h.1 he.symm), ih h.2]
    simp

theorem split_join {l : List Str} (hne : l ≠ []) (h : ∀ e ∈ l, '/' ∉ e) :
    splitOnChar '/' (joinSegs l) = l := by
  induction l with
  | nil => exact absurd rfl hne
  | cons a rest ih =>
    cases rest with
    | nil =>
      exact splitOnChar_no_sep_self (h a (List.mem_cons_self a []))
    | cons b t =>
      rw [joinSegs_cons _ _ (by simp)]
      rw [splitOnChar_append_sep _ (h a (List.mem_cons_self a _))]
      rw [ih (by simp) (fun e he => h e (List.mem_cons_of_mem a he))]

theorem splitOnChar_sep_not_mem (c : Char) (s : Str) :
    ∀ e ∈ splitOnChar c s, c ∉ e := by
  induction s with
  | nil => simp [splitOnChar]
  | cons x xs ih =>
    by_cases hx : x = c
    · subst hx
      rw [splitOnChar_cons_sep]
      intro e he
      rcases List.mem_cons.mp he with rfl | he
      · simp
      · exact ih e he
    · rw [splitOnChar_cons_ne xs hx]
      intro e he
      obtain ⟨hd, tl, hsplit⟩ : ∃ hd tl, splitOnChar c xs = hd :: tl :=
        List.exists_cons_of_ne_nil (splitOnChar_ne_nil c xs)
      rw [hsplit] at he
      simp only [List.headD_cons, List.tail_cons] at he
      rcases List.mem_cons.mp he with rfl | he
      · intro hc
        rcases List.mem_cons.mp hc with rfl | hc
        · exact hx rfl
        · exact ih hd (by rw [hsplit]; exact List.mem_cons_self hd tl) hc
      · exact ih e (by rw [hsplit]; exact List.mem_cons_of_mem hd he)

theorem splitOnChar_chars (c : Char) (s : Str) :
    ∀ e ∈ splitOnChar c s, ∀ x ∈ e, x ∈ s := by
  induction s with
  | nil => simp [splitOnChar]
  | cons y xs ih =>
    by_cases hy : y = c
    · subst hy
      rw [splitOnChar_cons_sep]
      intro e he x hx
      rcases List.mem_cons.mp he with rfl | he
      · simp at hx
      · exact List.mem_cons_of_mem y (ih e he x hx)
    · rw [splitOnChar_cons_ne xs hy]
      intro e he x hx
      obtain ⟨hd, tl, hsplit⟩ : ∃ hd tl, splitOnChar c xs = hd :: tl :=
        List.exists_cons_of_ne_nil (splitOnChar_ne_nil c xs)
      rw [hsplit] at he
      simp only [List.headD_cons, List.tail_cons] at he
      rcases List.mem_cons.mp he with rfl | he
      · rcases List.mem_cons.mp hx with rfl | hx
        · exact List.mem_cons_self x xs
        · exact List.mem_cons_of_mem y
            (ih hd (by rw [hsplit]; exact List.mem_cons_self hd tl) x hx)
      · exact List.mem_cons_of_mem y
          (ih e (by rw [hsplit]; exact List.mem_cons_of_mem hd he) x hx)

theorem splitHostPath_no_slash {s : Str} (h : '/' ∉ s) :
    splitHostPath s = (s, []) := by
  induction s with
  | nil => rfl
  | cons x xs ih =>
    simp only [List.mem_cons, not_or] at h
    have hx : ¬ x = '/' := fun he => h.1 he.symm
    simp [splitHostPath, hx, ih h.2]

theorem splitHostPath_append {h : Str} (t : Str) (hh : '/' ∉ h) :
    splitHostPath (h ++ '/' :: t) = (h, '/' :: t) := by
  induction h with
  | nil => simp [splitHostPath]
  | cons x xs ih =>
    simp only [List.mem_cons, not_or] at hh
    have hx : ¬ x = '/' := fun he => hh.1 he.symm
    simp [splitHostPath, hx, ih hh.2]

theorem schemeLoop_found {mid rest : Str} (acc orig : Str)
    (h : ∀ x ∈ mid, isSchemeTailChar x = true) :
    schemeLoop acc orig (mid ++ ':' :: rest) = some (acc ++ mid, rest) := by
  induction mid generalizing acc with
  | nil =>
    simp only [List.nil_append, schemeLoop]
    rw [if_neg (by decide)]
    simp
  | cons x xs ih =>
    have hx := h x (List.mem_cons_self x xs)
    simp only [List.cons_append, schemeLoop, hx, if_true, List.append_eq]
    rw [ih (acc ++ [x]) (fun y hy => h y (List.mem_cons_of_mem x hy))]
    simp

theorem getScheme_of_scheme {S rest : Str} (hS : validSchemeB S = true) (hne : S ≠ []) :
    getScheme (S ++ ':' :: rest) = some (S, rest) := by
  cases S with
  | nil => exact absurd rfl hne
  | cons c t =>
    simp only [validSchemeB, Bool.and_eq_true, List.all_eq_true] at hS
    have hca : isAlphaChar c = true := hS.1
    have hcne : ¬ c = ':' := by
      intro he
      rw [he] at hca
      exact absurd hca (by decide)
    simp only [List.cons_append, getScheme, hcne, if_false, hca, if_true]
    rw [schemeLoop_found [c] _ (fun y hy => hS.2 y (List.mem_cons_of_mem c hy))]
    simp

theorem getScheme_no_scheme {c : Char} (rest : Str)
    (ha : isAlphaChar c = false) (hc : ¬ c = ':') :
    getScheme (c :: rest) = some ([], c :: rest) := by
  simp [getScheme, hc, ha]

theorem countChar_append (c : Char) (a b : Str) :
    countChar c (a ++ b) = countChar c a + countChar c b := by
  simp [countChar, List.filter_append]

theorem countChar_not_mem {c : Char} {s : Str} (h : c ∉ s) : countChar c s = 0 := by
  simp only [countChar, List.length_eq_zero, List.filter_eq_nil_iff]
  intro x hx
  simp only [decide_eq_true_eq]
  intro he
  exact h (he ▸ hx)

theorem startsWith2_cons (a b : Char) (t : Str) :
    strStartsWith [a, b] (a :: b :: t) = true := by
  simp [strStartsWith]

theorem startsWith2_elim {a b : Char} {s : Str} (h : strStartsWith [a, b] s = true) :
    ∃ t, s = a :: b :: t := by
  match s with
  | [] => simp [strStartsWith] at h
  | [x] => simp [strStartsWith] at h
  | x :: y :: t =>
    simp only [strStartsWith, List.length_cons, List.length_nil, List.take, decide_eq_true_eq,
      List.cons.injEq] at h
    exact ⟨t, by rw [h.1, h.2.1]⟩

theorem startsWith2_false {a b : Char} {s : Str} (hne : s.head? ≠ some a) :
    strStartsWith [a, b] s = false := by
  match s with
  | [] => rfl
  | [x] =>
    simp [strStartsWith]
  | x :: y :: t =>
    simp only [List.head?_cons, ne_eq, Option.some.injEq] at hne
    simp [strStartsWith, hne]

theorem cutFirst_fst_subset {c : Char} {s : Str} : ∀ x ∈ (cutFirst c s).1, x ∈ s := by
  induction s with
  | nil => simp [cutFirst]
  | cons y ys ih =>
    by_cases hy : y = c
    · simp [cutFirst, hy]
    · simp only [cutFirst, if_neg hy]
      intro x hx
      rcases List.mem_cons.mp hx with rfl | hx
      · exact List.mem_cons_self x ys
      · exact List.mem_cons_of_mem y (ih x hx)

theorem cutFirst_snd_subset {c : Char} {s : Str} : ∀ x ∈ (cutFirst c s).2.1, x ∈ s := by
  induction s with
  | nil => simp [cutFirst]
  | cons y ys ih =>
    by_cases hy : y = c
    · subst hy
      simp [cutFirst]
      intro x hx
      exact Or.inr hx
    · simp only [cutFirst, if_neg hy]
      intro x hx
      exact List.mem_cons_of_mem y (ih x hx)

theorem cutFirst_fst_no_sep {c : Char} {s : Str} : c ∉ (cutFirst c s).1 := by
  induction s with
  | nil => simp [cutFirst]
  | cons y ys ih =>
    by_cases hy : y = c
    · simp [cutFirst, hy]
    · simp only [cutFirst, if_neg hy]
      intro hx
      rcases List.mem_cons.mp hx with he | hx
      · exact hy he.symm
      · exact ih hx

theorem joinSegs_chars {l : List Str} : ∀ x ∈ joinSegs l, x = '/' ∨ ∃ e ∈ l, x ∈ e := by
  induction l with
  | nil => simp [joinSegs]
  | cons a rest ih =>
    cases rest with
    | nil =>
      intro x hx
      exact Or.inr ⟨a, List.mem_cons_self a [], hx⟩
    | cons b t =>
      rw [joinSegs_cons _ _ (by simp)]
      intro x hx
      rcases List.mem_append.mp hx with hx | hx
      · exact Or.inr ⟨a, List.mem_cons_self a _, hx⟩
      · rcases List.mem_cons.mp hx with rfl | hx
        · exact Or.inl rfl
        · rcases ih x hx with h | ⟨e, he, hxe⟩
          · exact Or.inl h
          · exact Or.inr ⟨e, List.mem_cons_of_mem a he, hxe⟩

theorem lastSlashTake_subset (base : Str) : ∀ x ∈ lastSlashTake base, x ∈ base := by
  intro x hx
  unfold lastSlashTake at hx
  rw [List.mem_reverse] at hx
  have := List.dropWhile_subset (l := base.reverse) (fun c => c ≠ '/') hx
  rwa [List.mem_reverse] at this

theorem trimOneLeadingSlash_subset (s : Str) : ∀ x ∈ trimOneLeadingSlash s, x ∈ s := by
  unfold trimOneLeadingSlash
  split
  · intro x hx
    exact List.mem_cons_of_mem _ hx
  · intro x hx
    exact hx

/-- The accumulator loop of resolvePath only ever holds the empty segment or
non-dot segments of the input list. -/
theorem resolveFold_mem (l : List Str) (P : Str → Prop)
    (hP : ∀ e ∈ l, ¬(e = ['.'] ∨ e = ['.', '.']) → P e) :
    ∀ acc : List Str, (∀ e ∈ acc, P e) →
      ∀ e ∈ l.foldl
        (fun acc e =>
          if e = ['.'] then acc
          else if e = ['.', '.'] then acc.dropLast
          else acc ++ [e]) acc,
        P e := by
  induction l with
  | nil => intro acc hacc e he; exact hacc e he
  | cons a rest ih =>
    intro acc hacc e he
    simp only [List.foldl_cons] at he
    by_cases h1 : a = ['.']
    · rw [if_pos h1] at he
      exact ih (fun e he => hP e (List.mem_cons_of_mem a he)) acc hacc e he
    · rw [if_neg h1] at he
      by_cases h2 : a = ['.', '.']
      · rw [if_pos h2] at he
        exact ih (fun e he => hP e (List.mem_cons_of_mem a he))
          acc.dropLast (fun e he => hacc e (List.dropLast_subset _ he)) e he
      · rw [if_neg h2] at he
        refine ih (fun e he => hP e (List.mem_cons_of_mem a he)) (acc ++ [a]) ?_ e he
        intro e he2
        rcases List.mem_append.mp he2 with he2 | he2
        · exact hacc e he2
        · rw [List.mem_singleton.mp he2]
          exact hP a (List.mem_cons_self a rest) (by tauto)

theorem dotRemove_head (full : Str) : (dotRemove full).head? = some '/' := rfl

theorem dotRemove_id {p : Str} (h1 : p.head? = some '/') (h2 : dotFreeB p = true) :
    dotRemove p = p := by
  unfold dotRemove
  simp only [dotFreeB, List.all_eq_true, Bool.and_eq_true, bne_iff_ne, ne_eq,
    decide_eq_true_eq] at h2
  have hfold : (splitOnChar '/' p).foldl
      (fun acc e =>
        if e = ['.'] then acc
        else if e = ['.', '.'] then acc.dropLast
        else acc ++ [e]) [] = splitOnChar '/' p := by
    have hgen : ∀ (l : List Str), (∀ e ∈ l, ¬(e = ['.'] ∨ e = ['.', '.'])) →
        ∀ acc : List Str, l.foldl
          (fun acc e =>
            if e = ['.'] then acc
            else if e = ['.', '.'] then acc.dropLast
            else acc ++ [e]) acc = acc ++ l := by
      intro l
      induction l with
      | nil => intro _ acc; simp
      | cons a rest ih =>
        intro hl acc
        have ha := hl a (List.mem_cons_self a rest)
        simp only [List.foldl_cons, if_neg (fun he => ha (Or.inl he)),
          if_neg (fun he => ha (Or.inr he))]
        rw [ih (fun e he => hl e (List.mem_cons_of_mem a he)) (acc ++ [a])]
        simp
    have := hgen (splitOnChar '/' p)
      (fun e he => by
        have h3 := h2 e he
        tauto) []
    simpa using this
  have hlast : ¬(((splitOnChar '/' p).getLast? = some ['.']) ∨
      ((splitOnChar '/' p).getLast? = some ['.', '.'])) := by
    intro hor
    rcases hor with hl | hl
    · exact (h2 _ (List.mem_of_getLast?_eq_some hl)).1 rfl
    · exact (h2 _ (List.mem_of_getLast?_eq_some hl)).2 rfl
  simp only [hfold, if_neg hlast]
  rw [join_split]
  cases p with
  | nil => simp at h1
  | cons c t =>
    simp only [List.head?_cons, Option.some.injEq] at h1
    subst h1
    rfl

theorem trimOne_of_ne {s : Str} (h : s.head? ≠ some '/') : trimOneLeadingSlash s = s := by
  unfold trimOneLeadingSlash
  split
  · simp_all
  · rfl

theorem joinSegs_head {d0 : Str} (rest : List Str) (h : d0 ≠ []) :
    (joinSegs (d0 :: rest)).head? = d0.head? := by
  cases rest with
  | nil => rfl
  | cons b t =>
    rw [joinSegs_cons _ _ (by simp)]
    cases d0 with
    | nil => exact absurd rfl h
    | cons c cs => rfl

/-- Elements held by the dot-removal accumulator: slash-free and not dot
segments. -/
theorem dotRemove_dst_facts (full : Str) :
    ∀ e ∈ (let segs := splitOnChar '/' full
           let dst0 := segs.foldl
             (fun acc e =>
               if e = ['.'] then acc
               else if e = ['.', '.'] then acc.dropLast
               else acc ++ [e]) ([] : List Str)
           if segs.getLast? = some ['.'] ∨ segs.getLast? = some ['.', '.'] then dst0 ++ [[]]
           else dst0),
      ('/' ∉ e ∧ e ≠ ['.'] ∧ e ≠ ['.', '.'] ∧ ∀ x ∈ e, x ∈ full) := by
  simp only []
  have hfold := resolveFold_mem (splitOnChar '/' full)
    (fun e => '/' ∉ e ∧ e ≠ ['.'] ∧ e ≠ ['.', '.'] ∧ ∀ x ∈ e, x ∈ full)
    (fun e he hd => ⟨splitOnChar_sep_not_mem '/' full e he,
      fun h1 => hd (Or.inl h1), fun h2 => hd (Or.inr h2),
      fun x hx => splitOnChar_chars '/' full e he x hx⟩)
    [] (by simp)
  split
  · intro e he
    rcases List.mem_append.mp he with he | he
    · exact hfold e he
    · rw [List.mem_singleton.mp he]
      exact ⟨by simp, by simp, by simp, by simp⟩
  · exact hfold

theorem dotRemove_dotFree (full : Str) : dotFreeB (dotRemove full) = true := by
  have hdst := dotRemove_dst_facts full
  unfold dotRemove
  simp only [] at hdst ⊢
  set dst := (let segs := splitOnChar '/' full
              let dst0 := segs.foldl
                (fun acc e =>
                  if e = ['.'] then acc
                  else if e = ['.', '.'] then acc.dropLast
                  else acc ++ [e]) ([] : List Str)
              if segs.getLast? = some ['.'] ∨ segs.getLast? = some ['.', '.'] then dst0 ++ [[]]
              else dst0) with hdsteq
  clear hdsteq
  match dst, hdst with
  | [], _ => decide
  | [] :: [], _ => decide
  | [] :: r0 :: rt, hdst =>
    have hjoin : joinSegs ([] :: r0 :: rt) = '/' :: joinSegs (r0 :: rt) := by
      rw [joinSegs_cons _ _ (by simp)]
      rfl
    rw [hjoin]
    simp only [trimOneLeadingSlash]
    rw [show ('/' :: joinSegs (r0 :: rt) : Str) = joinSegs ([] :: r0 :: rt) from hjoin.symm]
    unfold dotFreeB
    rw [split_join (by simp) (fun e he => (hdst e he).1)]
    rw [List.all_eq_true]
    intro e he
    have h := hdst e he
    simp [h.2.1, h.2.2.1]
  | (c :: cs) :: rest, hdst =>
    have hd0 := hdst (c :: cs) (List.mem_cons_self _ _)
    have hne : (c :: cs : Str) ≠ [] := by simp
    have hhead : (joinSegs ((c :: cs) :: rest)).head? = some c := joinSegs_head rest hne
    have hc : ¬ c = '/' := by
      intro he
      exact hd0.1 (he ▸ List.mem_cons_self c cs)
    rw [trimOne_of_ne (by rw [hhead]; simp [hc])]
    have hj : joinSegs ([] :: (c :: cs) :: rest) = '/' :: joinSegs ((c :: cs) :: rest) := by
      rw [joinSegs_cons ([] : Str) ((c :: cs) :: rest) (by simp)]
      rfl
    rw [← hj]
    unfold dotFreeB
    rw [split_join (by simp) ?side]
    case side =>
      intro e he
      rcases List.mem_cons.mp he with rfl | he
      · simp
      · exact (hdst e he).1
    rw [List.all_eq_true]
    intro e he
    rcases List.mem_cons.mp he with rfl | he
    · simp
    · have h := hdst e he
      simp [h.2.1, h.2.2.1]

theorem dotRemove_chars {c : Char} (full : Str) (hc : ¬ c = '/') (hf : c ∉ full) :
    c ∉ dotRemove full := by
  have hdst := dotRemove_dst_facts full
  unfold dotRemove
  simp only [] at hdst ⊢
  intro hmem
  rcases List.mem_cons.mp hmem with he | hmem
  · exact hc he
  · have := trimOneLeadingSlash_subset _ c hmem
    rcases joinSegs_chars c this with h | ⟨e, he, hce⟩
    · exact hc h
    · exact hf ((hdst e he).2.2.2 c hce)

theorem resolvePath_eq (base ref : Str) :
    resolvePath base ref =
      (if (if ref = [] then base
           else if ref.head? ≠ some '/' then lastSlashTake base ++ ref else ref) = [] then []
       else dotRemove (if ref = [] then base
           else if ref.head? ≠ some '/' then lastSlashTake base ++ ref else ref)) := rfl

theorem resolvePath_self {p : Str} (h1 : p.head? = some '/') (h2 : dotFreeB p = true) :
    resolvePath p [] = p := by
  have hne : ¬ p = [] := by cases p <;> simp_all
  rw [resolvePath_eq]
  simp only [if_true]
  rw [if_neg hne]
  exact dotRemove_id h1 h2

theorem resolvePath_spec (base ref : Str) :
    resolvePath base ref = [] ∨
    ((resolvePath base ref).head? = some '/' ∧ dotFreeB (resolvePath base ref) = true) := by
  rw [resolvePath_eq]
  by_cases h : (if ref = [] then base
      else if ref.head? ≠ some '/' then lastSlashTake base ++ ref else ref) = []
  · rw [if_pos h]
    exact Or.inl rfl
  · rw [if_neg h]
    exact Or.inr ⟨dotRemove_head _, dotRemove_dotFree _⟩

theorem resolvePath_chars {c : Char} (base ref : Str) (hc : ¬ c = '/')
    (hb : c ∉ base) (hr : c ∉ ref) : c ∉ resolvePath base ref := by
  rw [resolvePath_eq]
  have hfull : c ∉ (if ref = [] then base
      else if ref.head? ≠ some '/' then lastSlashTake base ++ ref else ref) := by
    split
    · exact hb
    · split
      · intro hm
        rcases List.mem_append.mp hm with hm | hm
        · exact hb (lastSlashTake_subset base c hm)
        · exact hr hm
      · exact hr
  by_cases h : (if ref = [] then base
      else if ref.head? ≠ some '/' then lastSlashTake base ++ ref else ref) = []
  · rw [if_pos h]
    simp
  · rw [if_neg h]
    exact dotRemove_chars _ hc hfull

theorem alpha_isTail {c : Char} (h : isAlphaChar c = true) : isSchemeTailChar c = true := by
  simp [isSchemeTailChar, h]

theorem validSchemeB_lower {s : Str} (h : validSchemeB s = true) :
    validSchemeB (toLowerStr s) = true := by
  cases s with
  | nil => rfl
  | cons c t =>
    simp only [validSchemeB, Bool.and_eq_true, List.all_eq_true] at h
    simp only [toLowerStr, List.map_cons, validSchemeB, Bool.and_eq_true, List.all_eq_true]
    refine ⟨asciiToLower_alpha h.1, ?_⟩
    intro x hx
    rcases List.mem_cons.mp hx with rfl | hx
    · exact asciiToLower_tail (h.2 c (List.mem_cons_self c t))
    · rw [List.mem_map] at hx
      obtain ⟨y, hy, rfl⟩ := hx
      exact asciiToLower_tail (h.2 y (List.mem_cons_of_mem c hy))

theorem schemeLoop_cases {p q : Str} : ∀ (l acc orig : Str),
    schemeLoop acc orig l = some (p, q) →
    (p = [] ∧ q = orig) ∨
    (∃ mid, l = mid ++ ':' :: q ∧ p = acc ++ mid ∧ ∀ x ∈ mid, isSchemeTailChar x = true) := by
  intro l
  induction l with
  | nil =>
    intro acc orig h
    simp [schemeLoop] at h
    refine Or.inl ⟨?_, ?_⟩ <;> simp_all
  | cons c t ih =>
    intro acc orig h
    simp only [schemeLoop] at h
    by_cases hc : isSchemeTailChar c = true
    · rw [if_pos hc] at h
      rcases ih (acc ++ [c]) orig h with hl | ⟨mid, hm1, hm2, hm3⟩
      · exact Or.inl hl
      · refine Or.inr ⟨c :: mid, by rw [hm1]; rfl, by rw [hm2]; simp, ?_⟩
        intro x hx
        rcases List.mem_cons.mp hx with rfl | hx
        · exact hc
        · exact hm3 x hx
    · rw [if_neg hc] at h
      by_cases hcc : c = ':'
      · rw [if_pos hcc] at h
        simp only [Option.some.injEq, Prod.mk.injEq] at h
        exact Or.inr ⟨[], by rw [hcc, h.2]; simp, by rw [h.1]; simp, by simp⟩
      · rw [if_neg hcc] at h
        simp only [Option.some.injEq, Prod.mk.injEq] at h
        refine Or.inl ⟨?_, ?_⟩ <;> simp_all

theorem getScheme_cases {s p q : Str} (h : getScheme s = some (p, q)) :
    (p = [] ∧ q = s) ∨
    (s = p ++ ':' :: q ∧ p ≠ [] ∧ validSchemeB p = true) := by
  cases s with
  | nil =>
    simp only [getScheme, Option.some.injEq, Prod.mk.injEq] at h
    refine Or.inl ⟨?_, ?_⟩ <;> simp_all
  | cons c rest =>
    simp only [getScheme] at h
    by_cases hc : c = ':'
    · rw [if_pos hc] at h
      exact absurd h (by simp)
    · rw [if_neg hc] at h
      by_cases ha : isAlphaChar c = true
      · rw [if_pos ha] at h
        rcases schemeLoop_cases rest [c] (c :: rest) h with hl | ⟨mid, hm1, hm2, hm3⟩
        · exact Or.inl hl
        · refine Or.inr ⟨by rw [hm1, hm2]; rfl, by rw [hm2]; simp, ?_⟩
          rw [hm2]
          simp only [validSchemeB, List.singleton_append, Bool.and_eq_true, List.all_eq_true]
          refine ⟨ha, ?_⟩
          intro x hx
          rcases List.mem_cons.mp hx with rfl | hx
          · exact alpha_isTail ha
          · exact hm3 x hx
      · rw [if_neg ha] at h
        simp only [Option.some.injEq, Prod.mk.injEq] at h
        refine Or.inl ⟨?_, ?_⟩ <;> simp_all

theorem countChar_zero_not_mem {c : Char} {s : Str} (h : countChar c s = 0) : c ∉ s := by
  simp only [countChar, List.length_eq_zero, List.filter_eq_nil_iff, decide_eq_true_eq] at h
  intro hm
  exact h c hm rfl

theorem splitHostPath_fst_no_slash (s : Str) : '/' ∉ (splitHostPath s).1 := by
  induction s with
  | nil => simp [splitHostPath]
  | cons x xs ih =>
    simp only [splitHostPath]
    by_cases hx : x = '/'
    · rw [if_pos hx]
      simp
    · rw [if_neg hx]
      intro hm
      rcases List.mem_cons.mp hm with he | hm
      · exact hx he.symm
      · exact ih hm

theorem splitHostPath_fst_subset (s : Str) : ∀ x ∈ (splitHostPath s).1, x ∈ s := by
  induction s with
  | nil => simp [splitHostPath]
  | cons y ys ih =>
    simp only [splitHostPath]
    by_cases hy : y = '/'
    · rw [if_pos hy]
      simp
    · rw [if_neg hy]
      intro x hx
      rcases List.mem_cons.mp hx with rfl | hx
      · exact List.mem_cons_self x ys
      · exact List.mem_cons_of_mem y (ih x hx)

theorem splitHostPath_snd_subset (s : Str) : ∀ x ∈ (splitHostPath s).2, x ∈ s := by
  induction s with
  | nil => simp [splitHostPath]
  | cons y ys ih =>
    simp only [splitHostPath]
    by_cases hy : y = '/'
    · rw [if_pos hy]
      simp
    · rw [if_neg hy]
      intro x hx
      exact List.mem_cons_of_mem y (ih x hx)

theorem splitHostPath_snd_shape (s : Str) :
    (splitHostPath s).2 = [] ∨ (splitHostPath s).2.head? = some '/' := by
  induction s with
  | nil => simp [splitHostPath]
  | cons y ys ih =>
    simp only [splitHostPath]
    by_cases hy : y = '/'
    · rw [if_pos hy]
      subst hy
      simp
    · rw [if_neg hy]
      exact ih

/-- Invariants of every URL value produced by `parseURL`. -/
structure ParsedOK (u : GoURL) : Prop where
  schemeV : validSchemeB u.scheme = true
  schemeL : toLowerStr u.scheme = u.scheme
  hostS : '/' ∉ u.host
  hostQ : '?' ∉ u.host
  hostH : '#' ∉ u.host
  pathQ : '?' ∉ u.path
  pathH : '#' ∉ u.path
  queryH : '#' ∉ u.rawQuery
  fqQ : u.forceQuery = true → u.rawQuery = []
  opqP : u.opq ≠ [] → u.scheme ≠ [] ∧ u.host = [] ∧ u.path = [] ∧ u.omitHost = false ∧
    u.opq.head? ≠ some '/' ∧ '?' ∉ u.opq ∧ '#' ∉ u.opq
  omitP : u.omitHost = true → u.scheme ≠ [] ∧ u.host = []

theorem classify_parsedOK {sch rest2 q frag : Str} {fq : Bool} {u : GoURL}
    (hS : validSchemeB sch = true) (hSL : toLowerStr sch = sch)
    (h2Q : '?' ∉ rest2) (h2H : '#' ∉ rest2) (hqH : '#' ∉ q) (hfq : fq = true → q = [])
    (h : classifyRest sch rest2 fq q frag = some u) : ParsedOK u := by
  unfold classifyRest at h
  split at h
  · rename_i hc1
    simp only [Option.some.injEq] at h
    subst h
    exact ⟨hS, hSL, by simp, by simp, by simp, by simp, by simp, hqH, hfq,
      fun _ => ⟨hc1.2, rfl, rfl, rfl, hc1.1, h2Q, h2H⟩, by simp⟩
  · split at h
    · exact absurd h (by simp)
    · split at h
      · simp only [Option.some.injEq] at h
        subst h
        refine ⟨hS, hSL, splitHostPath_fst_no_slash _, ?_, ?_, ?_, ?_, hqH, hfq, by simp,
          by simp⟩
        · intro hm
          exact h2Q (List.mem_of_mem_drop (splitHostPath_fst_subset _ _ hm))
        · intro hm
          exact h2H (List.mem_of_mem_drop (splitHostPath_fst_subset _ _ hm))
        · intro hm
          exact h2Q (List.mem_of_mem_drop (splitHostPath_snd_subset _ _ hm))
        · intro hm
          exact h2H (List.mem_of_mem_drop (splitHostPath_snd_subset _ _ hm))
      · split at h
        · rename_i hc4
          simp only [Option.some.injEq] at h
          subst h
          exact ⟨hS, hSL, by simp, by simp, by simp, h2Q, h2H, hqH, hfq, by simp,
            fun _ => ⟨hc4.1, rfl⟩⟩
        · simp only [Option.some.injEq] at h
          subst h
          exact ⟨hS, hSL, by simp, by simp, by simp, h2Q, h2H, hqH, hfq, by simp, by simp⟩

theorem parseURL_eq (raw : Str) :
    parseURL raw =
      match getScheme (cutFirst '#' raw).1 with
      | none => none
      | some (sch0, rest1) =>
        classifyRest (toLowerStr sch0)
          (if (rest1.getLast? = some '?' ∧ countChar '?' rest1 = 1 : Bool) then rest1.dropLast
           else (cutFirst '?' rest1).1)
          (rest1.getLast? = some '?' ∧ countChar '?' rest1 = 1 : Bool)
          (if (rest1.getLast? = some '?' ∧ countChar '?' rest1 = 1 : Bool) then []
           else (cutFirst '?' rest1).2.1)
          (cutFirst '#' raw).2.1 := rfl

theorem parsedOK_of_parse {raw : Str} {u : GoURL} (h : parseURL raw = some u) :
    ParsedOK u := by
  rw [parseURL_eq] at h
  cases hg : getScheme (cutFirst '#' raw).1 with
  | none =>
    rw [hg] at h
    exact absurd h (by simp)
  | some pr =>
    obtain ⟨sch0, rest1⟩ := pr
    rw [hg] at h
    simp only [] at h
    have hS : validSchemeB (toLowerStr sch0) = true := by
      rcases getScheme_cases hg with ⟨h1, _⟩ | ⟨_, _, h3⟩
      · rw [h1]
        rfl
      · exact validSchemeB_lower h3
    have hrest1 : ∀ x ∈ rest1, x ∈ (cutFirst '#' raw).1 := by
      rcases getScheme_cases hg with ⟨_, h2⟩ | ⟨h1, _, _⟩
      · intro x hx
        rw [← h2]
        exact hx
      · intro x hx
        rw [h1]
        exact List.mem_append_right _ (List.mem_cons_of_mem _ hx)
    have hHr : '#' ∉ rest1 := fun hm => cutFirst_fst_no_sep (hrest1 _ hm)
    by_cases hfqP : rest1.getLast? = some '?' ∧ countChar '?' rest1 = 1
    · obtain ⟨ys, hys⟩ := List.getLast?_eq_some_iff.mp hfqP.1
      have hdrop : rest1.dropLast = ys := by
        rw [hys]
        exact List.dropLast_concat
      have hysq : '?' ∉ ys := by
        have h2 := hfqP.2
        rw [hys, countChar_append] at h2
        simp [countChar] at h2
        intro hm
        exact h2 '?' hm rfl
      have hdecide : (decide (rest1.getLast? = some '?' ∧ countChar '?' rest1 = 1)) = true := by
        simp [hfqP]
      rw [hdecide] at h
      simp only [if_true] at h
      refine classify_parsedOK hS (toLowerStr_idem _) ?_ ?_ (by simp) (fun _ => rfl) h
      · rw [hdrop]
        exact hysq
      · rw [hdrop]
        intro hm
        exact hHr (by rw [hys]; exact List.mem_append_left _ hm)
    · have hdecide : (decide (rest1.getLast? = some '?' ∧ countChar '?' rest1 = 1)) = false := by
        simp only [decide_eq_false_iff_not]
        exact hfqP
      rw [hdecide] at h
      rw [if_neg (by simp), if_neg (by simp)] at h
      refine classify_parsedOK hS (toLowerStr_idem _) cutFirst_fst_no_sep ?_ ?_
        (fun hf => by simp at hf) h
      · intro hm
        exact hHr (cutFirst_fst_subset _ hm)
      · intro hm
        exact hHr (cutFirst_snd_subset _ hm)

/-- The authority-and-path body of a printed URL with a scheme. -/
def urlBody (u : GoURL) : Str :=
  if u.opq ≠ [] then u.opq
  else
    (if u.omitHost ∧ u.host = [] then []
     else if u.host ≠ [] ∨ u.path ≠ [] then '/' :: '/' :: u.host
     else []) ++
    (if u.path ≠ [] ∧ u.path.head? ≠ some '/' ∧ u.host ≠ [] then ['/'] else []) ++
    u.path

theorem urlString_decomp (u : GoURL) (hs : u.scheme ≠ []) :
    urlString u = u.scheme ++ ':' ::
      (urlBody u ++ (if u.forceQuery = true ∨ u.rawQuery ≠ [] then '?' :: u.rawQuery else []) ++
       (if u.fragment ≠ [] then '#' :: u.fragment else [])) := by
  unfold urlString urlBody
  simp only [if_pos hs, hs]
  by_cases ho : u.opq ≠ []
  · simp only [if_pos ho]
    by_cases hq : u.forceQuery = true ∨ u.rawQuery ≠ []
    · by_cases hf : u.fragment ≠ [] <;> simp [hq, hf, List.append_assoc]
    · by_cases hf : u.fragment ≠ [] <;> simp [hq, hf, List.append_assoc]
  · simp only [if_neg ho]
    by_cases h1 : u.omitHost ∧ u.host = []
    · simp only [if_pos h1]
      by_cases hq : u.forceQuery = true ∨ u.rawQuery ≠ [] <;>
        by_cases hf : u.fragment ≠ [] <;>
        by_cases h2 : u.path ≠ [] ∧ u.path.head? ≠ some '/' ∧ u.host ≠ [] <;>
        simp [hs, h1, h2, hq, hf, List.append_assoc]
    · simp only [if_neg h1]
      by_cases h3 : u.host ≠ [] ∨ u.path ≠ [] <;>
        by_cases hq : u.forceQuery = true ∨ u.rawQuery ≠ [] <;>
        by_cases hf : u.fragment ≠ [] <;>
        by_cases h2 : u.path ≠ [] ∧ u.path.head? ≠ some '/' ∧ u.host ≠ [] <;>
        simp [hs, h1, h2, h3, hq, hf, List.append_assoc]

theorem schemeV_no_special {S : Str} (h : validSchemeB S = true) :
    '#' ∉ S ∧ '?' ∉ S := by
  cases S with
  | nil => simp
  | cons c t =>
    simp only [validSchemeB, Bool.and_eq_true, List.all_eq_true] at h
    constructor <;> intro hm <;> have := h.2 _ hm <;> simp [isSchemeTailChar,
      isAlphaChar, isDigitChar] at this

theorem parseURL_core (S BODY q frag : Str) (fq : Bool)
    (hSne : S ≠ []) (hSv : validSchemeB S = true)
    (hBH : '#' ∉ BODY) (hBQ : '?' ∉ BODY)
    (hqH : '#' ∉ q) (hfq : fq = true → q = []) :
    parseURL (S ++ ':' :: (BODY ++ (if fq = true ∨ q ≠ [] then '?' :: q else []) ++
        (if frag ≠ [] then '#' :: frag else []))) =
      classifyRest (toLowerStr S) BODY fq q frag := by
  have hSH : '#' ∉ S := (schemeV_no_special hSv).1
  have hqpartH : '#' ∉ (if fq = true ∨ q ≠ [] then '?' :: q else []) := by
    split
    · intro hm
      rcases List.mem_cons.mp hm with he | hm
      · exact absurd he (by decide)
      · exact hqH hm
    · simp
  have hnoA : '#' ∉ S ++ ':' :: (BODY ++ (if fq = true ∨ q ≠ [] then '?' :: q else [])) := by
    intro hm
    rcases List.mem_append.mp hm with hm | hm
    · exact hSH hm
    · rcases List.mem_cons.mp hm with he | hm
      · exact absurd he (by decide)
      · rcases List.mem_append.mp hm with hm | hm
        · exact hBH hm
        · exact hqpartH hm
  have hcutA : cutFirst '#'
      (S ++ ':' :: (BODY ++ (if fq = true ∨ q ≠ [] then '?' :: q else []) ++
        (if frag ≠ [] then '#' :: frag else []))) =
      (S ++ ':' :: (BODY ++ (if fq = true ∨ q ≠ [] then '?' :: q else [])), frag,
        decide (frag ≠ [])) := by
    by_cases hf : frag ≠ []
    · rw [if_pos hf]
      have hassoc : S ++ ':' :: (BODY ++ (if fq = true ∨ q ≠ [] then '?' :: q else []) ++
          '#' :: frag) =
          (S ++ ':' :: (BODY ++ (if fq = true ∨ q ≠ [] then '?' :: q else []))) ++
            '#' :: frag := by
        simp [List.append_assoc]
      rw [hassoc, cutFirst_append hnoA]
      simp [hf]
    · rw [if_neg hf]
      push_neg at hf
      subst hf
      rw [List.append_nil, cutFirst_not_mem hnoA]
      simp
  rw [parseURL_eq, hcutA]
  dsimp only
  rw [getScheme_of_scheme hSv hSne]
  dsimp only
  by_cases hfqc : fq = true
  · have hq0 : q = [] := hfq hfqc
    subst hq0
    subst hfqc
    rw [if_pos (by simp : (true = true ∨ ([] : Str) ≠ []))]
    have hlast : (BODY ++ '?' :: [] : Str).getLast? = some '?' := by
      simp
    have hcount : countChar '?' (BODY ++ '?' :: []) = 1 := by
      rw [countChar_append, countChar_not_mem hBQ]
      rfl
    have hdec : (decide ((BODY ++ '?' :: [] : Str).getLast? = some '?' ∧
        countChar '?' (BODY ++ '?' :: []) = 1)) = true := by
      simp only [decide_eq_true_eq]
      exact ⟨hlast, hcount⟩
    rw [hdec]
    simp only [if_true]
    rw [show (BODY ++ '?' :: [] : Str) = BODY ++ ['?'] from rfl, List.dropLast_concat]
  · have hfqf : fq = false := Bool.eq_false_iff.mpr hfqc
    subst hfqf
    by_cases hqn : q ≠ []
    · rw [if_pos (Or.inr hqn)]
      have hdec : (decide ((BODY ++ '?' :: q : Str).getLast? = some '?' ∧
          countChar '?' (BODY ++ '?' :: q) = 1)) = false := by
        simp only [decide_eq_false_iff_not]
        intro hand
        have hcount := hand.2
        rw [countChar_append] at hcount
        rw [countChar_not_mem hBQ] at hcount
        have hq1 : countChar '?' ('?' :: q) = 1 + countChar '?' q := by
          simp [countChar, List.filter_cons, Nat.add_comm]
        rw [hq1] at hcount
        have hq0 : countChar '?' q = 0 := by omega
        have hnq : '?' ∉ q := countChar_zero_not_mem hq0
        have hlast := hand.1
        cases q with
        | nil => exact hqn rfl
        | cons c t =>
          rw [List.getLast?_append, List.getLast?_cons_cons] at hlast
          have hx : ((c :: t : Str)).getLast? = some ((c :: t).getLast (by simp)) :=
            List.getLast?_eq_getLast _ _
          rw [hx] at hlast
          simp only [Option.or] at hlast
          have h2 : (c :: t : Str).getLast (by simp) = '?' := Option.some.inj hlast
          exact hnq (h2 ▸ List.getLast_mem _)
      rw [hdec]
      simp only [Bool.false_eq_true, if_false]
      rw [cutFirst_append hBQ]
    · push_neg at hqn
      subst hqn
      rw [if_neg (by simp : ¬(false = true ∨ ([] : Str) ≠ []))]
      rw [List.append_nil]
      have hdec : (decide ((BODY : Str).getLast? = some '?' ∧
          countChar '?' BODY = 1)) = false := by
        simp only [decide_eq_false_iff_not]
        intro hand
        exact hBQ (List.mem_of_getLast?_eq_some hand.1)
      rw [hdec]
      simp only [Bool.false_eq_true, if_false]
      rw [cutFirst_not_mem hBQ]

theorem resolveReference_absolute (b u : GoURL) (h : u.scheme ≠ []) :
    resolveReference b u = { u with path := resolvePath u.path [] } := by
  unfold resolveReference
  simp only [if_neg h, if_pos (Or.inl h)]

theorem resolveReference_clean (b u : GoURL) (hs : u.scheme ≠ [])
    (hpr : u.path = [] ∨ (u.path.head? = some '/' ∧ dotFreeB u.path = true)) :
    resolveReference b u = u := by
  rw [resolveReference_absolute b u hs]
  have h0 : resolvePath u.path [] = u.path := by
    rcases hpr with hp | ⟨h1, h2⟩
    · rw [hp]
      simp [resolvePath_eq]
    · exact resolvePath_self h1 h2
  rw [h0]

theorem GoURL_eq {u v : GoURL} (h1 : u.scheme = v.scheme) (h2 : u.opq = v.opq)
    (h3 : u.host = v.host) (h4 : u.omitHost = v.omitHost) (h5 : u.path = v.path)
    (h6 : u.forceQuery = v.forceQuery) (h7 : u.rawQuery = v.rawQuery)
    (h8 : u.fragment = v.fragment) : u = v := by
  cases u
  cases v
  simp_all

theorem urlBody_chars {c : Char} {u : GoURL} (hc : ¬ c = '/')
    (hO : c ∉ u.opq) (hH : c ∉ u.host) (hPp : c ∉ u.path) :
    c ∉ urlBody u := by
  unfold urlBody
  split
  · exact hO
  · intro hm
    rcases List.mem_append.mp hm with hm | hm
    · rcases List.mem_append.mp hm with hm | hm
      · split at hm
        · simp at hm
        · split at hm
          · simp only [List.mem_cons] at hm
            rcases hm with he | he | hm
            · exact hc he
            · exact hc he
            · exact hH hm
          · simp at hm
      · split at hm
        · simp only [List.mem_singleton] at hm
          exact hc hm
        · simp at hm
    · exact hPp hm

theorem reparse_stable (u : GoURL) (hP : ParsedOK u) (hs : u.scheme ≠ [])
    (hpr : u.path = [] ∨ (u.path.head? = some '/' ∧ dotFreeB u.path = true))
    (hexc : ¬(u.omitHost = true ∧ strStartsWith ['/', '/'] u.path = true)) :
    ∃ u2, parseURL (urlString u) = some u2 ∧
      ∀ b, urlString (resolveReference b u2) = urlString u := by
  have hOQ : '?' ∉ u.opq := by
    by_cases ho : u.opq = []
    · rw [ho]
      simp
    · exact (hP.opqP ho).2.2.2.2.2.1
  have hOH : '#' ∉ u.opq := by
    by_cases ho : u.opq = []
    · rw [ho]
      simp
    · exact (hP.opqP ho).2.2.2.2.2.2
  have hBQ : '?' ∉ urlBody u := urlBody_chars (by decide) hOQ hP.hostQ hP.pathQ
  have hBH : '#' ∉ urlBody u := urlBody_chars (by decide) hOH hP.hostH hP.pathH
  have hparse : parseURL (urlString u) =
      classifyRest u.scheme (urlBody u) u.forceQuery u.rawQuery u.fragment := by
    rw [urlString_decomp u hs,
      parseURL_core u.scheme (urlBody u) u.rawQuery u.fragment u.forceQuery hs hP.schemeV
        hBH hBQ hP.queryH hP.fqQ, hP.schemeL]
  by_cases ho : u.opq ≠ []
  · obtain ⟨_, hh, hp, hom, hhd, _, _⟩ := hP.opqP ho
    have hbody : urlBody u = u.opq := by
      unfold urlBody
      rw [if_pos ho]
    refine ⟨u, ?_, ?_⟩
    · rw [hparse, hbody]
      unfold classifyRest
      rw [if_pos ⟨hhd, hs⟩]
      exact congrArg some (GoURL_eq rfl rfl hh.symm hom.symm hp.symm rfl rfl rfl)
    · intro b
      rw [resolveReference_clean b u hs hpr]
  · push_neg at ho
    have hbody : urlBody u =
        (if u.omitHost ∧ u.host = [] then []
         else if u.host ≠ [] ∨ u.path ≠ [] then '/' :: '/' :: u.host
         else []) ++ u.path := by
      unfold urlBody
      rw [if_neg (by simp [ho])]
      have hsl : (if u.path ≠ [] ∧ u.path.head? ≠ some '/' ∧ u.host ≠ [] then ['/']
          else ([] : Str)) = [] := by
        rcases hpr with hp | ⟨h1, _⟩
        · rw [if_neg]
          simp [hp]
        · rw [if_neg]
          simp [h1]
      rw [hsl, List.append_nil]
    by_cases hH : u.omitHost ∧ u.host = []
    · rw [if_pos hH, List.nil_append] at hbody
      rcases hpr with hp | ⟨h1, h2⟩
      · rw [hp] at hbody
        refine ⟨⟨u.scheme, [], [], false, [], u.forceQuery, u.rawQuery, u.fragment⟩, ?_, ?_⟩
        · rw [hparse, hbody]
          unfold classifyRest
          rw [if_pos ⟨by simp, hs⟩]
        · intro b
          rw [resolveReference_clean b
            ⟨u.scheme, [], [], false, [], u.forceQuery, u.rawQuery, u.fragment⟩ hs
            (Or.inl rfl)]
          rw [urlString_decomp
            ⟨u.scheme, [], [], false, [], u.forceQuery, u.rawQuery, u.fragment⟩ hs,
            urlString_decomp u hs, hbody]
          have hb2 : urlBody
              (⟨u.scheme, [], [], false, [], u.forceQuery, u.rawQuery, u.fragment⟩ : GoURL) =
              [] := by
            simp [urlBody]
          rw [hb2]
      · refine ⟨u, ?_, ?_⟩
        · rw [hparse, hbody]
          unfold classifyRest
          rw [if_neg (fun hc => hc.1 h1), if_neg (fun hc => hc.1 h1),
            if_neg (fun hc => hexc ⟨hH.1, hc.2⟩), if_pos ⟨hs, h1⟩]
          exact congrArg some (GoURL_eq rfl ho.symm hH.2.symm hH.1.symm rfl rfl rfl rfl)
        · intro b
          rw [resolveReference_clean b u hs (Or.inr ⟨h1, h2⟩)]
    · have homf : u.omitHost = false := by
        rcases Bool.eq_false_or_eq_true u.omitHost with h | h
        · exact absurd ⟨h, (hP.omitP h).2⟩ hH
        · exact h
      by_cases hE : u.host ≠ [] ∨ u.path ≠ []
      · rw [if_neg hH, if_pos hE] at hbody
        have hsplit : splitHostPath (u.host ++ u.path) = (u.host, u.path) := by
          rcases hpr with hp | ⟨h1, _⟩
          · rw [hp, List.append_nil, splitHostPath_no_slash hP.hostS]
          · cases hpath : u.path with
            | nil =>
              rw [hpath] at h1
              simp at h1
            | cons c t =>
              have hc : c = '/' := by
                rw [hpath] at h1
                simpa using h1
              subst hc
              exact splitHostPath_append t hP.hostS
        refine ⟨u, ?_, ?_⟩
        · rw [hparse, hbody]
          unfold classifyRest
          have hhead : ((('/' :: '/' :: u.host : Str)) ++ u.path).head? = some '/' := rfl
          have hsw : strStartsWith ['/', '/'] (('/' :: '/' :: u.host : Str) ++ u.path) =
              true := rfl
          rw [if_neg (fun hc => hc.1 hhead), if_neg (fun hc => hc.1 hhead),
            if_pos ⟨Or.inl hs, hsw⟩]
          simp only []
          have hdrop : ((('/' :: '/' :: u.host : Str)) ++ u.path).drop 2 =
              u.host ++ u.path := rfl
          rw [hdrop, hsplit]
          exact congrArg some (GoURL_eq rfl ho.symm rfl homf.symm rfl rfl rfl rfl)
        · intro b
          rw [resolveReference_clean b u hs hpr]
      · push_neg at hE
        rw [if_neg hH, if_neg (by simp [hE.1, hE.2]), List.nil_append, hE.2] at hbody
        refine ⟨u, ?_, ?_⟩
        · rw [hparse, hbody]
          unfold classifyRest
          rw [if_pos ⟨by simp, hs⟩]
          exact congrArg some (GoURL_eq rfl ho.symm hE.1.symm homf.symm hE.2.symm rfl rfl rfl)
        · intro b
          rw [resolveReference_clean b u hs hpr]

theorem resolveReference_authority (b ref : GoURL) (h1 : ref.scheme = [])
    (h2 : ref.host ≠ []) :
    resolveReference b ref =
      ⟨b.scheme, ref.opq, ref.host, ref.omitHost, resolvePath ref.path [],
       ref.forceQuery, ref.rawQuery, ref.fragment⟩ := by
  unfold resolveReference
  simp only [if_pos h1, if_pos (Or.inr h2)]

theorem resolveReference_relative (b ref : GoURL) (h1 : ref.scheme = [])
    (h2 : ref.host = []) (h3 : ref.opq = []) :
    resolveReference b ref =
      if ref.path = [] ∧ ref.forceQuery = false ∧ ref.rawQuery = [] then
        (if ref.fragment = [] then
          (⟨b.scheme, ref.opq, b.host, ref.omitHost, resolvePath b.path ref.path,
           ref.forceQuery, b.rawQuery, b.fragment⟩ : GoURL)
         else
          ⟨b.scheme, ref.opq, b.host, ref.omitHost, resolvePath b.path ref.path,
           ref.forceQuery, b.rawQuery, ref.fragment⟩)
      else
        ⟨b.scheme, ref.opq, b.host, ref.omitHost, resolvePath b.path ref.path,
         ref.forceQuery, ref.rawQuery, ref.fragment⟩ := by
  unfold resolveReference
  simp only [if_pos h1, if_neg (show ¬(ref.scheme ≠ [] ∨ ref.host ≠ []) by simp [h1, h2]),
    if_neg (show ¬ref.opq ≠ [] by simp [h3])]
  by_cases hc : ref.path = [] ∧ ref.forceQuery = false ∧ ref.rawQuery = []
  · rw [if_pos hc, if_pos hc]
    by_cases hf : ref.fragment = []
    · rw [if_pos hf, if_pos hf]
    · rw [if_neg hf, if_neg hf]
  · rw [if_neg hc, if_neg hc]

theorem resolveReference_good (b ref : GoURL) (hPb : ParsedOK b) (hPr : ParsedOK ref)
    (hbs : b.scheme ≠ []) :
    ParsedOK (resolveReference b ref) ∧ (resolveReference b ref).scheme ≠ [] ∧
      ((resolveReference b ref).path = [] ∨
       ((resolveReference b ref).path.head? = some '/' ∧
        dotFreeB (resolveReference b ref).path = true)) := by
  by_cases hrs : ref.scheme = []
  · by_cases hrh : ref.host = []
    · by_cases hro : ref.opq = []
      · rw [resolveReference_relative b ref hrs hrh hro]
        by_cases hc : ref.path = [] ∧ ref.forceQuery = false ∧ ref.rawQuery = []
        · rw [if_pos hc]
          by_cases hf : ref.fragment = []
          · rw [if_pos hf]
            exact ⟨⟨hPb.schemeV, hPb.schemeL, hPb.hostS, hPb.hostQ, hPb.hostH,
              resolvePath_chars _ _ (by decide) hPb.pathQ hPr.pathQ,
              resolvePath_chars _ _ (by decide) hPb.pathH hPr.pathH,
              hPb.queryH,
              fun hft => absurd hft (by simp [hc.2.1]),
              fun hne => absurd hro hne,
              fun homt => absurd hrs (hPr.omitP homt).1⟩,
              hbs, resolvePath_spec b.path ref.path⟩
          · rw [if_neg hf]
            exact ⟨⟨hPb.schemeV, hPb.schemeL, hPb.hostS, hPb.hostQ, hPb.hostH,
              resolvePath_chars _ _ (by decide) hPb.pathQ hPr.pathQ,
              resolvePath_chars _ _ (by decide) hPb.pathH hPr.pathH,
              hPb.queryH,
              fun hft => absurd hft (by simp [hc.2.1]),
              fun hne => absurd hro hne,
              fun homt => absurd hrs (hPr.omitP homt).1⟩,
              hbs, resolvePath_spec b.path ref.path⟩
        · rw [if_neg hc]
          exact ⟨⟨hPb.schemeV, hPb.schemeL, hPb.hostS, hPb.hostQ, hPb.hostH,
            resolvePath_chars _ _ (by decide) hPb.pathQ hPr.pathQ,
            resolvePath_chars _ _ (by decide) hPb.pathH hPr.pathH,
            hPr.queryH, hPr.fqQ,
            fun hne => absurd hro hne,
            fun homt => absurd hrs (hPr.omitP homt).1⟩,
            hbs, resolvePath_spec b.path ref.path⟩
      · exact absurd hrs (hPr.opqP hro).1
    · rw [resolveReference_authority b ref hrs hrh]
      exact ⟨⟨hPb.schemeV, hPb.schemeL, hPr.hostS, hPr.hostQ, hPr.hostH,
        resolvePath_chars _ _ (by decide) hPr.pathQ (by simp),
        resolvePath_chars _ _ (by decide) hPr.pathH (by simp),
        hPr.queryH, hPr.fqQ,
        fun hne => absurd (hPr.opqP hne).2.1 hrh,
        fun homt => absurd (hPr.omitP homt).2 hrh⟩,
        hbs, resolvePath_spec ref.path []⟩
  · rw [resolveReference_absolute b ref hrs]
    refine ⟨⟨hPr.schemeV, hPr.schemeL, hPr.hostS, hPr.hostQ, hPr.hostH,
      resolvePath_chars _ _ (by decide) hPr.pathQ (by simp),
      resolvePath_chars _ _ (by decide) hPr.pathH (by simp),
      hPr.queryH, hPr.fqQ, ?_, hPr.omitP⟩,
      hrs, resolvePath_spec ref.path []⟩
    intro hne
    obtain ⟨o1, o2, o3, o4, o5, o6, o7⟩ := hPr.opqP hne
    refine ⟨o1, o2, ?_, o4, o5, o6, o7⟩
    rw [o3]
    simp [resolvePath_eq]

/-- Claim C8 as literally stated fails: with the base URL parsed from the
empty string and the href `/.//`, NormalizeURL yields `//`, and normalizing
`//` against the same base yields the empty string, not `//` -- so
normalize(b, normalize(b, h)) differs from normalize(b, h) although the
first normalization succeeded. -/
theorem c8_counterexample :
    parseURL [] = some emptyURL ∧
    NormalizeURL emptyURL ['/', '.', '/', '/'] = some ['/', '/'] ∧
    NormalizeURL emptyURL ['/', '/'] = some [] ∧
    ([] : Str) ≠ ['/', '/'] :=
  ⟨by decide, by decide, by decide, by decide⟩

/-- Claim C8, amended: URL normalization is idempotent for bases that carry
a scheme.  If the base parses with a nonempty scheme and normalize(b, h)
succeeds, producing the string of the resolved URL, and the resolved URL
does not pair an omitted host with a path starting in `//` (the one
ambiguous printing), then normalizing that string against the same base
returns it unchanged. -/
theorem c8_normalize_idempotent_absolute (bs rel : Str) (b uh : GoURL)
    (hb : parseURL bs = some b) (hbs : b.scheme ≠ [])
    (hh : parseURL rel = some uh)
    (hexc : ¬((resolveReference b uh).omitHost = true ∧
        strStartsWith ['/', '/'] (resolveReference b uh).path = true)) :
    NormalizeURL b rel = some (urlString (resolveReference b uh)) ∧
      NormalizeURL b (urlString (resolveReference b uh)) =
        some (urlString (resolveReference b uh)) := by
  have hPb := parsedOK_of_parse hb
  have hPu := parsedOK_of_parse hh
  obtain ⟨hPg, hsg, hprg⟩ := resolveReference_good b uh hPb hPu hbs
  obtain ⟨u2, hu2, hstr⟩ := reparse_stable (resolveReference b uh) hPg hsg hprg hexc
  constructor
  · unfold NormalizeURL
    rw [hh]
    rfl
  · unfold NormalizeURL
    rw [hu2]
    exact congrArg some (hstr b)

/-- Claim C8 witness: the amended idempotence theorem applied to the base
`http://a/b` and the href `../x`, whose normalization is `http://a/x`. -/
theorem c8_normalize_idempotent_absolute_witness :
    NormalizeURL ⟨['h', 't', 't', 'p'], [], ['a'], false, ['/', 'b'], false, [], []⟩
        ['.', '.', '/', 'x'] =
      some (urlString (resolveReference
        ⟨['h', 't', 't', 'p'], [], ['a'], false, ['/', 'b'], false, [], []⟩
        ⟨[], [], [], false, ['.', '.', '/', 'x'], false, [], []⟩)) ∧
      NormalizeURL ⟨['h', 't', 't', 'p'], [], ['a'], false, ['/', 'b'], false, [], []⟩
        (urlString (resolveReference
          ⟨['h', 't', 't', 'p'], [], ['a'], false, ['/', 'b'], false, [], []⟩
          ⟨[], [], [], false, ['.', '.', '/', 'x'], false, [], []⟩)) =
        some (urlString (resolveReference
          ⟨['h', 't', 't', 'p'], [], ['a'], false, ['/', 'b'], false, [], []⟩
          ⟨[], [], [], false, ['.', '.', '/', 'x'], false, [], []⟩)) :=
  c8_normalize_idempotent_absolute
    ['h', 't', 't', 'p', ':', '/', '/', 'a', '/', 'b'] ['.', '.', '/', 'x']
    ⟨['h', 't', 't', 'p'], [], ['a'], false, ['/', 'b'], false, [], []⟩
    ⟨[], [], [], false, ['.', '.', '/', 'x'], false, [], []⟩
    (by decide) (by decide) (by decide) (by decide)
